import Mathlib

/-!
Verification development for the `prop_model` reconciliation-and-scoring
engine (files `src/prop_model/engine.py`, `src/prop_model/mapping.py`,
`src/prop_model/config.py`).

Python floats are modelled by `ℚ` (the engine only performs field
arithmetic, comparisons, `min`/`max` and one integer rounding); `NaN` /
missing numeric cells are modelled by `Option ℚ` (`none` = NaN or absent),
exceptions by `Option`/`Except`.  Python cell values that may be `None`,
`NaN` or a string are modelled by `PyVal`.  The two genuinely external text
transformations (`unicodedata.normalize("NFKD", ·)` composed with
`encode("ascii","ignore")`, and full-Unicode `str.lower`) are kept abstract
in a `TextEnv` record; theorems assume only their documented behaviour on
ASCII data (`EnvOK`), and witnesses instantiate a concrete ASCII instance.
The standard normal CDF (`math.erf`) is likewise kept as an abstract
parameter `Φ`; no settled claim depends on its values.
-/

set_option allowUnsafeReducibility true
attribute [local semireducible] Rat.add Rat.mul Rat.inv Rat.sub Rat.div Rat.ofScientific

namespace PropModel

/-- Model of a Python cell value that the engine inspects dynamically:
`vnone` = the value is absent (missing column / `None`), `vnan` = a float
`NaN` cell, `vstr s` = the string `s`. -/
inductive PyVal where
  | vnone : PyVal
  | vnan : PyVal
  | vstr (s : String) : PyVal
deriving DecidableEq

/-- Python truthiness of a `PyVal`: `None` and `""` are falsy, `NaN` and
nonempty strings are truthy. -/
def PyVal.truthy : PyVal → Bool
  | .vnone => false
  | .vnan => true
  | .vstr s => !(s = "")

/-- Python `str(value)` on a `PyVal` (`str(None) = "None"`,
`str(float("nan")) = "nan"`). -/
def pyValStr : PyVal → String
  | .vnone => "None"
  | .vnan => "nan"
  | .vstr s => s

/-- Python `str(row.get(col, ""))`: an absent cell falls back to the
default `""`; a `NaN` cell stringifies to `"nan"`. -/
def pyGetStr : PyVal → String
  | .vnone => ""
  | .vnan => "nan"
  | .vstr s => s

/-- Python `a or b` restricted to the cell values the engine feeds it. -/
def pyOr (a b : PyVal) : PyVal :=
  if a.truthy then a else b

/-- ASCII lower-casing of one character (what Python `str.lower` does on
the ASCII range). -/
def asciiLowerChar (c : Char) : Char :=
  if 'A' ≤ c ∧ c ≤ 'Z' then Char.ofNat (c.toNat + 32) else c

/-- ASCII upper-casing of one character (what Python `str.upper` does on
the ASCII range). -/
def asciiUpperChar (c : Char) : Char :=
  if 'a' ≤ c ∧ c ≤ 'z' then Char.ofNat (c.toNat - 32) else c

/-- ASCII lower-casing of a string. -/
def asciiLower (s : String) : String :=
  ⟨s.data.map asciiLowerChar⟩

/-- ASCII upper-casing of a string. -/
def asciiUpper (s : String) : String :=
  ⟨s.data.map asciiUpperChar⟩

/-- The characters matched by the regex class `\s` (and by `str.split()` /
`str.strip()` without arguments) within the ASCII range. -/
def pyWsChar (c : Char) : Bool :=
  c = ' ' ∨ c = '\t' ∨ c = '\n' ∨ c = '\x0b' ∨ c = '\x0c' ∨ c = '\r' ∨
    c = '\x1c' ∨ c = '\x1d' ∨ c = '\x1e' ∨ c = '\x1f'

/-- Strip leading and trailing whitespace from a character list. -/
def stripWsL (l : List Char) : List Char :=
  ((l.dropWhile pyWsChar).reverse.dropWhile pyWsChar).reverse

/-- Python `str.strip()` (ASCII whitespace). -/
def pyStrip (s : String) : String :=
  ⟨stripWsL s.data⟩

/-- `engine._clean_string`: `None` and `NaN` become `""`, anything else is
`str(value).strip()`. -/
def clean_string (v : PyVal) : String :=
  match v with
  | .vnone => ""
  | .vnan => ""
  | .vstr s => pyStrip s

/-- `[a-z0-9]` membership. -/
def isLowerAlnumChar (c : Char) : Bool :=
  ('a' ≤ c ∧ c ≤ 'z') ∨ ('0' ≤ c ∧ c ≤ '9')

/-- Accumulator worker for `splitOnP`: `acc` is the reversed current
token. -/
def splitGo (p : Char → Bool) : List Char → List Char → List (List Char)
  | [], acc => if acc = [] then [] else [acc.reverse]
  | c :: rest, acc =>
    if p c then
      if acc = [] then splitGo p rest []
      else acc.reverse :: splitGo p rest []
    else splitGo p rest (c :: acc)

/-- Split a character list on maximal runs of separator characters,
dropping empty pieces (the behaviour of `str.split()` and of
`re.split(sep+ ...)` once empty parts are skipped). -/
def splitOnP (p : Char → Bool) (l : List Char) : List (List Char) :=
  splitGo p l []

/-- State worker for `collapseWsL`: the flag records whether the previous
character was whitespace (whose run already emitted its single space). -/
def collapseGo : List Char → Bool → List Char
  | [], _ => []
  | c :: rest, prevWs =>
    if pyWsChar c then
      if prevWs then collapseGo rest true else ' ' :: collapseGo rest true
    else c :: collapseGo rest false

/-- Replace each maximal whitespace run by a single space
(`re.sub(r"\s+", " ", ·)`). -/
def collapseWsL (l : List Char) : List Char :=
  collapseGo l false

/-- `" ".join` on token lists. -/
def joinSpace : List (List Char) → List Char
  | [] => []
  | [t] => t
  | t :: ts => t ++ ' ' :: joinSpace ts

/-- The two external Unicode text primitives used by `mapping.py`, kept
abstract: `lower` is full-Unicode `str.lower`, `fold` is
`unicodedata.normalize("NFKD", ·)` followed by
`encode("ascii", "ignore").decode("ascii")`. -/
structure TextEnv where
  lower : String → String
  fold : String → String

/-- All characters of a string are ASCII. -/
def allAscii (s : String) : Bool :=
  s.data.all (fun c => c.toNat < 128)

/-- The documented behaviour of the abstract text primitives on ASCII
data: `str.lower` agrees with ASCII lower-casing on ASCII strings, NFKD
followed by ASCII-ignore fixes ASCII strings, and its output is always
ASCII. -/
def EnvOK (env : TextEnv) : Prop :=
  (∀ s, allAscii s → env.lower s = asciiLower s) ∧
  (∀ s, allAscii s → env.fold s = s) ∧
  (∀ s, allAscii (env.fold s))

/-- A concrete `TextEnv` used for evaluation: ASCII lower-casing, and
NFKD/ASCII-ignore realised as dropping non-ASCII characters. -/
def asciiEnv : TextEnv :=
  ⟨asciiLower, fun s => ⟨s.data.filter (fun c => c.toNat < 128)⟩⟩

/-- `mapping._SUFFIXES`, as character lists. -/
def suffixTokens : List (List Char) :=
  [['j', 'r'], ['s', 'r'], ['i', 'i'], ['i', 'i', 'i']]

/-- Core of `mapping.normalize_name` after the `None`/empty/`"nan"`
guards: NFKD-fold to ASCII, lower-case, replace `[^a-z0-9\s]` by spaces,
split into tokens, drop trailing generational suffixes, re-join, collapse
whitespace and strip. -/
def nameCore (env : TextEnv) (text : String) : String :=
  let t := asciiLower (env.fold text)
  let u := t.data.map (fun c => if isLowerAlnumChar c || pyWsChar c then c else ' ')
  let toks := splitOnP pyWsChar u
  let toks2 := (toks.reverse.dropWhile (fun tk => decide (tk ∈ suffixTokens))).reverse
  ⟨stripWsL (collapseWsL (joinSpace toks2))⟩

/-- `mapping.normalize_name`. -/
def normalize_name (env : TextEnv) (v : PyVal) : String :=
  match v with
  | .vnone => ""
  | _ =>
    let text := pyValStr v
    if text = "" ∨ env.lower text = "nan" then "" else nameCore env text

/-- `mapping._normalize_team`: fold, lower-case, and remove every
character outside `[a-z0-9]`. -/
def normalize_team (env : TextEnv) (v : PyVal) : String :=
  match v with
  | .vnone => ""
  | _ =>
    let text := pyValStr v
    if text = "" ∨ env.lower text = "nan" then ""
    else ⟨(asciiLower (env.fold text)).data.filter isLowerAlnumChar⟩

/-- The separator class `[\\/,&\s]` of `mapping._normalize_pos`. -/
def posSepChar (c : Char) : Bool :=
  c = '\\' ∨ c = '/' ∨ c = ',' ∨ c = '&' ∨ pyWsChar c

/-- `mapping._POS_ALIASES`. -/
def posAliases : List (String × String) :=
  [("HB", "RB"), ("TB", "RB"), ("FB", "RB"), ("RB", "RB"), ("WR", "WR"),
   ("TE", "TE"), ("QB", "QB"), ("PK", "K"), ("K", "K"), ("P", "P"),
   ("PR", "ST"), ("KR", "ST"), ("CB", "CB"), ("DB", "DB"), ("S", "S"),
   ("SS", "S"), ("FS", "S"), ("DE", "DL"), ("DT", "DL"), ("DL", "DL"),
   ("NT", "DL"), ("OLB", "LB"), ("ILB", "LB"), ("MLB", "LB"), ("LB", "LB"),
   ("EDGE", "LB"), ("OG", "OL"), ("OT", "OL"), ("OL", "OL"), ("C", "OL"),
   ("G", "OL"), ("T", "OL"), ("LS", "ST"), ("DST", "DST"), ("DEF", "DST")]

/-- `_POS_ALIASES.get(part, part)`. -/
def aliasMap (s : String) : String :=
  (posAliases.lookup s).getD s

/-- `mapping._normalize_pos`: fold, upper-case, split on
slash/comma/ampersand/backslash/whitespace, return the alias image of the
first non-empty part (alias values are non-empty, so the first non-empty
part always decides). -/
def normalize_pos (env : TextEnv) (v : PyVal) : String :=
  match v with
  | .vnone => ""
  | _ =>
    let text := pyValStr v
    if text = "" ∨ env.lower text = "nan" then ""
    else
      match splitOnP posSepChar (asciiUpper (env.fold text)).data with
      | [] => ""
      | p :: _ => aliasMap ⟨p⟩

/-! ### Configuration (`src/prop_model/config.py`) -/

/-- `config.ODDS_MIN`. -/
def ODDS_MIN : ℤ := -200

/-- `config.ODDS_MAX`. -/
def ODDS_MAX : ℤ := 500

/-- `config.MIN_BOOKS`. -/
def MIN_BOOKS : ℕ := 3

/-- `config.MAX_VIG` (= 0.06). -/
def MAX_VIG : ℚ := 6 / 100

/-- `config.SHORTLIST_EV` (= 0.03). -/
def SHORTLIST_EV : ℚ := 3 / 100

/-- `config.RECOMMEND_EV` (= 0.05). -/
def RECOMMEND_EV : ℚ := 5 / 100

/-- `config.Z_YARDS` (= 0.40). -/
def Z_YARDS : ℚ := 40 / 100

/-- `config.Z_YARDS_STRONG` (= 0.65). -/
def Z_YARDS_STRONG : ℚ := 65 / 100

/-- `config.Z_REC` (= 0.55). -/
def Z_REC : ℚ := 55 / 100

/-- `config.Z_REC_STRONG` (= 0.80). -/
def Z_REC_STRONG : ℚ := 80 / 100

/-- `config.BANKROLL_UNITS`. -/
def BANKROLL_UNITS : ℚ := 100

/-- `config.KELLY_MULTIPLIER` (= 0.5). -/
def KELLY_MULTIPLIER : ℚ := 1 / 2

/-- `config.INJURY_DROP_STATUSES`. -/
def INJURY_DROP_STATUSES : List String := ["OUT", "SUSP"]

/-- `config.INJURY_HALF_STATUSES`. -/
def INJURY_HALF_STATUSES : List String := ["Q", "D"]

/-! ### Odds/probability arithmetic (`src/prop_model/engine.py`) -/

/-- `engine._BASE_MARKET_TO_PROJECTION`: market key to (mean column,
standard-deviation column). -/
def BASE_MARKET_TO_PROJECTION : List (String × String × String) :=
  [("pass_yds", "pass_yds", "pass_yds_sd"),
   ("pass_tds", "pass_tds", "pass_tds_sd"),
   ("pass_int", "pass_int", "pass_int_sd"),
   ("rush_yds", "rush_yds", "rush_yds_sd"),
   ("rush_tds", "rush_tds", "rush_tds_sd"),
   ("receptions", "rec", "rec_sd"),
   ("reception_yds", "rec_yds", "rec_yds_sd"),
   ("reception_tds", "rec_tds", "rec_tds_sd")]

/-- `engine._YARD_MARKETS`. -/
def YARD_MARKETS : List String := ["pass_yds", "rush_yds", "reception_yds"]

/-- `engine._projection_columns`. -/
def projection_columns (market_key : String) : Option (String × String) :=
  BASE_MARKET_TO_PROJECTION.lookup market_key

/-- `engine._is_yard_market`. -/
def is_yard_market (market_key : String) : Bool :=
  market_key ∈ YARD_MARKETS

/-- `engine.american_to_prob`: implied probability of an American price;
a zero price raises `ValueError` (`none`).  `None`/`NaN` inputs, which
also raise, are outside the rational model. -/
def american_to_prob (odds : ℚ) : Option ℚ :=
  if odds = 0 then none
  else if odds > 0 then some (100 / (odds + 100))
  else some (-odds / (-odds + 100))

/-- Python `round` (banker's rounding, half to even), composed with `int`.
On exact halves it picks the even neighbour. -/
def pyRound (q : ℚ) : ℤ :=
  if q - ⌊q⌋ < 1 / 2 then ⌊q⌋
  else if 1 / 2 < q - ⌊q⌋ then ⌊q⌋ + 1
  else if 2 ∣ ⌊q⌋ then ⌊q⌋ else ⌊q⌋ + 1

/-- `engine.prob_to_american`: probability back to American odds;
probabilities outside `(0, 1)` raise `ValueError` (`none`). -/
def prob_to_american (p : ℚ) : Option ℤ :=
  if p ≤ 0 ∨ 1 ≤ p then none
  else if p > 1 / 2 then some (pyRound (-100 * p / (1 - p)))
  else if p < 1 / 2 then some (pyRound (100 * (1 - p) / p))
  else some (-100)

/-- `engine.prob_over` with the standard normal CDF abstracted as `Φ`
(the source uses a `math.erf` approximation, which has no exact rational
value); `none` models `NaN`/`None` arguments and a `NaN` result.  For
`sd ≤ 0` (or `NaN`/`None` sd) the source falls back to a deterministic
comparison. -/
def prob_over (Φ : ℚ → ℚ) (line mean sd : Option ℚ) : Option ℚ :=
  let degenerate : Option ℚ :=
    match mean, line with
    | some m, some l => some (if m > l then 1 else if m < l then 0 else 1 / 2)
    | _, _ => none
  match sd with
  | none => degenerate
  | some s =>
    if s ≤ 0 then degenerate
    else
      match line, mean with
      | some l, some m => some (1 - Φ ((l - m) / s))
      | _, _ => none

/-- `engine.prob_under` (same conventions as `prob_over`). -/
def prob_under (Φ : ℚ → ℚ) (line mean sd : Option ℚ) : Option ℚ :=
  let degenerate : Option ℚ :=
    match mean, line with
    | some m, some l => some (if m < l then 1 else if m > l then 0 else 1 / 2)
    | _, _ => none
  match sd with
  | none => degenerate
  | some s =>
    if s ≤ 0 then degenerate
    else
      match line, mean with
      | some l, some m => some (Φ ((l - m) / s))
      | _, _ => none

/-- The payout multiple per unit staked for an American price
(`price/100` when positive, `100/|price|` otherwise), as computed both in
`engine._kelly_fraction` and inline in `engine.join_and_score`. -/
def payout_of (odds : ℤ) : ℚ :=
  if odds > 0 then (odds : ℚ) / 100 else 100 / |(odds : ℚ)|

/-- `engine._kelly_fraction`: raw Kelly fraction, floored at 0. -/
def kelly_fraction (prob_win : ℚ) (odds : ℤ) : ℚ :=
  let payout := payout_of odds
  if payout ≤ 0 then 0
  else max ((payout * prob_win - (1 - prob_win)) / payout) 0

/-- `engine._tier_for_market`. -/
def tier_for_market (ev z_score : ℚ) (market_key : String) : String :=
  let strong := if is_yard_market market_key then Z_YARDS_STRONG else Z_REC_STRONG
  let moderate := if is_yard_market market_key then Z_YARDS else Z_REC
  if ev ≥ RECOMMEND_EV ∧ |z_score| ≥ strong then "RECOMMEND"
  else if ev ≥ SHORTLIST_EV ∧ |z_score| ≥ moderate then "SHORTLIST"
  else "PASS"

/-- `engine._finalize_units`: zero for non-positive Kelly, otherwise the
bankroll-scaled stake clamped into the `[0.2, 1.5]` unit band. -/
def finalize_units (kf : ℚ) : ℚ :=
  if kf ≤ 0 then 0 else min (max (kf * BANKROLL_UNITS) (1 / 5)) (3 / 2)

/-- `engine._coalesce_norm`: the first value that is a non-empty string. -/
def coalesce_norm (values : List PyVal) : String :=
  match values with
  | [] => ""
  | .vstr s :: rest => if s = "" then coalesce_norm rest else s
  | _ :: rest => coalesce_norm rest

/-! ### Per-row scoring (`engine.join_and_score`, loop body lines 385-482)

A row of the `combined` matched frame.  String-ish cells are `PyVal`
because the concatenation of the exact-match and fuzzy-match frames leaves
`NaN`/absent cells in the columns the other phase produced (in particular
the `_odds`/`_proj`-suffixed normalized-name columns exist only on
fuzzy-matched rows).  The per-market projection statistics are an
association list from projection column name to an optional rational
(`none` = missing/`NaN`). -/

structure CombinedRow where
  market_key : PyVal
  market : PyVal
  stats : List (String × Option ℚ)
  line : Option ℚ
  price_american : Option ℤ
  side : PyVal
  player_norm_odds : PyVal
  player_norm_proj : PyVal
  team_norm_odds : PyVal
  team_norm_proj : PyVal
  injury_status : PyVal
  player_odds : PyVal
  player_proj : PyVal
  team_odds : PyVal
  team_proj : PyVal
  position_proj : PyVal
  position_odds : PyVal
  bookmaker_title : PyVal
  event_id : PyVal
  event_start : PyVal
deriving DecidableEq

/-- An emitted edge record (`engine._OUTPUT_COLUMNS`). -/
structure EdgeRecord where
  player : String
  team : String
  position : String
  market : String
  side : String
  line : ℚ
  proj_mean : ℚ
  proj_sd : ℚ
  price_american : ℤ
  implied_prob : ℚ
  prob_model : ℚ
  ev_per_dollar : ℚ
  z_score : ℚ
  kelly_fraction : ℚ
  unit_size : ℚ
  bookmaker_title : String
  event_id : String
  event_start : String
  tier : String
deriving DecidableEq

/-- Possibly-infinite market vig: `engine._market_vig` stores
`float("inf")` for one-sided groups, and `join_and_score` defaults an
absent key to `float("inf")`. -/
inductive Vig where
  | inf : Vig
  | fin (q : ℚ) : Vig
deriving DecidableEq

/-- `row.get(col)` on the projection-statistic columns: `none` when the
column is absent or the cell is `NaN`. -/
def statOf (row : CombinedRow) (col : String) : Option ℚ :=
  (row.stats.lookup col).bind id

/-- The `(player_norm, team_norm, market_key)` grouping key the scoring
loop uses for the book-count and vig lookups. -/
def rowKey (row : CombinedRow) : String × String × String :=
  (coalesce_norm [row.player_norm_odds, row.player_norm_proj],
   coalesce_norm [row.team_norm_odds, row.team_norm_proj],
   pyValStr row.market_key)

/-- Everything the scoring loop computes before reading the injury
status (engine.py lines 386-444): market resolution, missing-value
skips, the book-count/vig quality gates, implied probability, model
probability, expected value, z-score and the multiplier-scaled Kelly
fraction.  Returns `none` for a `continue`. -/
def scorePre (Φ : ℚ → ℚ) (books : String × String × String → ℕ)
    (vigs : String × String × String → Vig) (row : CombinedRow) :
    Option (ℚ × ℚ × ℚ × ℤ × ℚ × ℚ × ℚ × ℚ × ℚ) :=
  if ¬(row.market_key.truthy) then none
  else
    match projection_columns (pyValStr row.market_key) with
    | none => none
    | some (mean_col, sd_col) =>
      let side := asciiLower (pyStrip (pyGetStr row.side))
      if ¬(side = "over" ∨ side = "under") then none
      else
        match statOf row mean_col, statOf row sd_col, row.line,
            row.price_american with
        | some mean_value, some sd_value, some line_value, some price_value =>
          let player_norm := coalesce_norm [row.player_norm_odds, row.player_norm_proj]
          let team_norm := coalesce_norm [row.team_norm_odds, row.team_norm_proj]
          if player_norm = "" ∨ team_norm = "" then none
          else
            let key := rowKey row
            if books key < MIN_BOOKS then none
            else
              match vigs key with
              | Vig.inf => none
              | Vig.fin vig =>
                if vig > MAX_VIG then none
                else
                  match american_to_prob (price_value : ℚ) with
                  | none => none
                  | some implied_prob =>
                    let prob_raw :=
                      if side = "over" then
                        prob_over Φ (some line_value) (some mean_value) (some sd_value)
                      else
                        prob_under Φ (some line_value) (some mean_value) (some sd_value)
                    let z_score :=
                      if side = "over" then
                        if sd_value > 0 then (mean_value - line_value) / sd_value else 0
                      else
                        -(if sd_value > 0 then (mean_value - line_value) / sd_value else 0)
                    match prob_raw with
                    | none => none
                    | some p0 =>
                      let prob_model := max 0 (min 1 p0)
                      let payout :=
                        if price_value > 0 then (price_value : ℚ) / 100
                        else 100 / |(price_value : ℚ)|
                      let ev_per_dollar := prob_model * payout - (1 - prob_model)
                      let kelly :=
                        kelly_fraction prob_model price_value * KELLY_MULTIPLIER
                      some (mean_value, sd_value, line_value, price_value,
                        implied_prob, prob_model, ev_per_dollar, z_score, kelly)
        | _, _, _, _ => none

/-- The scoring-loop body (engine.py lines 386-482): `scorePre` followed
by the injury drop/halving adjustments, unit sizing, tier classification,
record construction and the final unit-band clamp. -/
def scoreRow (Φ : ℚ → ℚ) (books : String × String × String → ℕ)
    (vigs : String × String × String → Vig) (row : CombinedRow) :
    Option EdgeRecord :=
  match scorePre Φ books vigs row with
  | none => none
  | some (mean_value, sd_value, line_value, price_value, implied_prob,
      prob_model, ev_per_dollar, z_score, kelly0) =>
    let injury_status := asciiUpper (pyGetStr row.injury_status)
    if injury_status ∈ INJURY_DROP_STATUSES then none
    else
      let unit0 := finalize_units kelly0
      let kelly1 :=
        if injury_status ∈ INJURY_HALF_STATUSES then kelly0 * (1 / 2) else kelly0
      let unit1 :=
        if injury_status ∈ INJURY_HALF_STATUSES then unit0 * (1 / 2) else unit0
      let kelly2 := max kelly1 0
      let unit2 := max unit1 0
      let tier := tier_for_market ev_per_dollar z_score (pyValStr row.market_key)
      let side := asciiLower (pyStrip (pyGetStr row.side))
      let unit3 := if unit2 > 0 then min (max unit2 (1 / 5)) (3 / 2) else unit2
      some
        { player := clean_string (pyOr row.player_odds row.player_proj)
          team := clean_string (pyOr row.team_odds row.team_proj)
          position := clean_string (pyOr row.position_proj row.position_odds)
          market := clean_string row.market
          side := side
          line := line_value
          proj_mean := mean_value
          proj_sd := sd_value
          price_american := price_value
          implied_prob := implied_prob
          prob_model := prob_model
          ev_per_dollar := ev_per_dollar
          z_score := z_score
          kelly_fraction := kelly2
          unit_size := unit3
          bookmaker_title := clean_string row.bookmaker_title
          event_id := clean_string row.event_id
          event_start := clean_string row.event_start
          tier := tier }

/-! ### Matcher (`src/prop_model/mapping.py`)

Data frames are modelled by lists of rows carrying their pandas frame
index explicitly (`fidx`); in the pipeline both the raw odds frame and the
projection frame are `reset_index`-ed and carry that index in an
`odds_index`/`proj_index` column, so the frame index coincides with the
carried index field. -/

/-- A row of a frame handed to `mapping.fuzzy_join` (only the three
columns it canonicalizes, plus the frame index). -/
structure FRow where
  fidx : ℕ
  player : PyVal
  team : PyVal
  position : PyVal
deriving DecidableEq

/-- A canonicalized `FRow` (`mapping.canonicalize` adds the
`player_norm`/`team_norm`/`pos_norm` columns). -/
structure FCan where
  fidx : ℕ
  player : PyVal
  team : PyVal
  position : PyVal
  player_norm : String
  team_norm : String
  pos_norm : String
deriving DecidableEq

/-- `mapping.canonicalize` on one row. -/
def canonicalizeRow (env : TextEnv) (r : FRow) : FCan :=
  { fidx := r.fidx, player := r.player, team := r.team,
    position := r.position,
    player_norm := normalize_name env r.player,
    team_norm := normalize_team env r.team,
    pos_norm := normalize_pos env r.position }

/-- A row of the manual-override table. -/
structure OverrideRow where
  player_left : PyVal
  team_left : PyVal
  pos_left : PyVal
  player_right : PyVal
  team_right : PyVal
  pos_right : PyVal
deriving DecidableEq

/-- A row of `fuzzy_join`'s result (the fields the pipeline consumes:
the two frame indices, the match score and the manual-override flag). -/
structure MatchRec where
  left_idx : ℕ
  right_idx : ℕ
  score : ℚ
  manual : Bool
deriving DecidableEq

/-- Does a canonicalized row match a normalized (player, team, pos)
triple? -/
def tripleIs (r : FCan) (p t po : String) : Bool :=
  r.player_norm = p ∧ r.team_norm = t ∧ r.pos_norm = po

/-- One step of `mapping._apply_manual_overrides`: masks are evaluated
against the *original* canonical columns (`left0`), matched left rows'
normalized columns are rewritten to the override's right-side values, and
a pair is recorded for each masked left row against the first masked
right row. -/
def applyOverrideStep (env : TextEnv) (left0 : List FCan) (right : List FCan)
    (state : List FCan × List (ℕ × ℕ)) (ov : OverrideRow) :
    List FCan × List (ℕ × ℕ) :=
  let lp := normalize_name env ov.player_left
  let lt := normalize_team env ov.team_left
  let lpos := normalize_pos env ov.pos_left
  let rp := normalize_name env ov.player_right
  let rt := normalize_team env ov.team_right
  let rpos := normalize_pos env ov.pos_right
  let leftMask := (left0.filter (fun r => tripleIs r lp lt lpos)).map (·.fidx)
  let rightMask := right.filter (fun r => tripleIs r rp rt rpos)
  match rightMask.head? with
  | none => state
  | some rfirst =>
    if leftMask = [] then state
    else
      let newLeft := state.1.map (fun r =>
        if r.fidx ∈ leftMask then
          { r with player_norm := rp, team_norm := rt, pos_norm := rpos }
        else r)
      (newLeft, state.2 ++ leftMask.map (fun l => (l, rfirst.fidx)))

/-- `mapping._apply_manual_overrides`: fold the override rows over the
(rewritable) left frame, returning the rewritten left frame and the
manual `(left index, right index)` pairs in discovery order. -/
def applyManualOverrides (env : TextEnv) (left : List FCan) (right : List FCan)
    (overrides : List OverrideRow) : List FCan × List (ℕ × ℕ) :=
  overrides.foldl (applyOverrideStep env left right) (left, [])

/-- The matching state threaded through `fuzzy_join`'s two loops:
accumulated match records plus the consumed left/right index sets. -/
structure MatchState where
  recs : List MatchRec
  matchedLeft : List ℕ
  matchedRight : List ℕ
deriving DecidableEq

/-- The bookkeeping invariant of `fuzzy_join`'s matching state: the
consumed index sets list exactly the recorded matches' left/right
indices, without duplicates. -/
def MatchStateInv (st : MatchState) : Prop :=
  st.matchedLeft = st.recs.map (fun r => r.left_idx) ∧
  st.matchedRight = st.recs.map (fun r => r.right_idx) ∧
  st.matchedLeft.Nodup ∧ st.matchedRight.Nodup

/-- The manual-pair loop of `mapping.fuzzy_join` (lines 229-234): take
each manual pair in order unless its left or right index was already
consumed. -/
def manualStep (st : MatchState) (pr : ℕ × ℕ) : MatchState :=
  if pr.2 ∈ st.matchedRight ∨ pr.1 ∈ st.matchedLeft then st
  else
    { recs := st.recs ++ [⟨pr.1, pr.2, 100, true⟩],
      matchedLeft := st.matchedLeft ++ [pr.1],
      matchedRight := st.matchedRight ++ [pr.2] }

/-- `rapidfuzz.process.extractOne` over `(index, choice)` pairs with a
score cutoff: the first choice attaining the maximal score at or above
the cutoff.  (The repository vendors a reduced rapidfuzz stand-in for
restricted environments that lacks `token_sort_ratio` and `score_cutoff`;
the engine targets the real rapidfuzz API, modelled here with the string
scorer abstract.)  `extractStep` is the fold body. -/
def extractStep (scorer : String → String → ℚ) (query : String)
    (cutoff : ℚ) (best : Option (ℕ × ℚ)) (c : ℕ × String) : Option (ℕ × ℚ) :=
  let sc := scorer query c.2
  if sc < cutoff then best
  else
    match best with
    | none => some (c.1, sc)
    | some b => if sc > b.2 then some (c.1, sc) else best

/-- `rapidfuzz.process.extractOne` proper: fold the running best over the
choice list. -/
def extractOne (scorer : String → String → ℚ) (query : String)
    (choices : List (ℕ × String)) (cutoff : ℚ) : Option (ℕ × ℚ) :=
  choices.foldl (extractStep scorer query cutoff) none

/-- The fuzzy loop body of `mapping.fuzzy_join` (lines 236-266): skip
consumed or team/position-less left rows, restrict candidates to the same
normalized team and position excluding consumed projections, and accept
the best scorer result at or above the cutoff of 90. -/
def fuzzyStep (scorer : String → String → ℚ) (right : List FCan)
    (st : MatchState) (row : FCan) : MatchState :=
  if row.fidx ∈ st.matchedLeft then st
  else if row.team_norm = "" ∨ row.pos_norm = "" then st
  else
    let rightSubset := right.filter (fun r =>
      r.team_norm = row.team_norm ∧ r.pos_norm = row.pos_norm)
    if rightSubset = [] then st
    else
      let choices := (rightSubset.filter (fun r => r.fidx ∉ st.matchedRight)).map
        (fun r => (r.fidx, r.player_norm))
      if choices = [] then st
      else
        match extractOne scorer row.player_norm choices 90 with
        | none => st
        | some (ridx, score) =>
          { recs := st.recs ++ [⟨row.fidx, ridx, score, false⟩],
            matchedLeft := st.matchedLeft ++ [row.fidx],
            matchedRight := st.matchedRight ++ [ridx] }

/-- `mapping.fuzzy_join` (with the default column arguments used by the
engine): canonicalize both frames, apply the manual overrides, run the
manual-pair loop and then the fuzzy loop.  The override table is an
explicit argument standing for the contents of the overrides file read by
`mapping._load_manual_overrides`; the unmatched-export side effect is
outside the model. -/
def fuzzyJoin (env : TextEnv) (scorer : String → String → ℚ)
    (overrides : List OverrideRow) (left_df right_df : List FRow) :
    List MatchRec :=
  let left := left_df.map (canonicalizeRow env)
  let right := right_df.map (canonicalizeRow env)
  let rewritten := applyManualOverrides env left right overrides
  let st0 := rewritten.2.foldl manualStep ⟨[], [], []⟩
  let st1 := rewritten.1.foldl (fuzzyStep scorer right) st0
  st1.recs

/-! ### Frame preparation and combination (`engine.py`) -/

/-- A raw odds row as handed to `join_and_score` (post
`reset_index`, with its frame index): string-ish columns as `PyVal`,
price/line as already-`to_numeric` optional rationals (`none` =
unparseable or missing). -/
structure RawOdds where
  oidx : ℕ
  side : PyVal
  market : PyVal
  bookmaker_title : PyVal
  event_id : PyVal
  event_start : PyVal
  player : PyVal
  team : PyVal
  position : PyVal
  price_american : Option ℚ
  line : Option ℚ
deriving DecidableEq

/-- A prepared (canonicalized) odds row (`engine._prepare_odds_frame`
output). -/
structure CanOdds where
  odds_index : ℕ
  side : String
  market : String
  market_key : String
  bookmaker_title : String
  event_id : String
  event_start : String
  player : String
  team : String
  position : PyVal
  price_american : ℤ
  line : ℚ
  player_norm : String
  team_norm : String
  pos_norm : String
deriving DecidableEq

/-- A projection row as handed to `join_and_score`. -/
structure ProjIn where
  player : PyVal
  team : PyVal
  position : PyVal
  injury_status : PyVal
  stats : List (String × Option ℚ)
deriving DecidableEq

/-- A prepared (indexed, canonicalized) projection row
(`engine._prepare_projection_frame` output). -/
structure CanProj where
  proj_index : ℕ
  player : PyVal
  team : PyVal
  position : PyVal
  injury_status : PyVal
  stats : List (String × Option ℚ)
  player_norm : String
  team_norm : String
  pos_norm : String
deriving DecidableEq

/-- `engine._normalize_market_key`: strip, lower-case, spaces to
underscores, drop one leading `player_`, rename `pass_interceptions`. -/
def normalize_market_key (market : String) : String :=
  let key := asciiLower (pyStrip market)
  let keyChars := key.data.map (fun c => if c = ' ' then '_' else c)
  let keyChars :=
    if ['p', 'l', 'a', 'y', 'e', 'r', '_'].isPrefixOf keyChars then
      keyChars.drop 7
    else keyChars
  let key : String := ⟨keyChars⟩
  if key = "pass_interceptions" then "pass_int" else key

/-- Python `int()` / numpy `astype(int)` on a float: truncation toward
zero. -/
def ratTrunc (q : ℚ) : ℤ :=
  if q ≥ 0 then ⌊q⌋ else ⌈q⌉

/-- Python `needle in haystack` on strings (substring containment). -/
def containsSubstring (needle hay : String) : Bool :=
  let n := needle.data
  let rec go : List Char → Bool
    | [] => n.isPrefixOf []
    | c :: rest => n.isPrefixOf (c :: rest) || go rest
  go hay.data

/-- `engine._prepare_projection_frame`: default the injury column (an
absent cell models the absent column), attach `proj_index`, and
canonicalize. -/
def prepare_projection_frame (env : TextEnv) (proj : List ProjIn) :
    List CanProj :=
  (List.range proj.length).zip proj |>.map (fun ip =>
    let injury := if ip.2.injury_status = PyVal.vnone then PyVal.vstr "OK"
      else ip.2.injury_status
    { proj_index := ip.1, player := ip.2.player, team := ip.2.team,
      position := ip.2.position, injury_status := injury,
      stats := ip.2.stats,
      player_norm := normalize_name env ip.2.player,
      team_norm := normalize_team env ip.2.team,
      pos_norm := normalize_pos env ip.2.position })

/-- An entry of `engine._build_position_lookup`: the first projection row
for each distinct `(player_norm, team_norm)`. -/
structure PosEntry where
  player_norm : String
  team_norm : String
  position : PyVal
  pos_norm : String
deriving DecidableEq

/-- `engine._build_position_lookup`. -/
def build_position_lookup (projections : List CanProj) : List PosEntry :=
  let entries := projections.map (fun p =>
    (⟨p.player_norm, p.team_norm, p.position, p.pos_norm⟩ : PosEntry))
  entries.foldl (fun acc e =>
    if acc.any (fun d => d.player_norm = e.player_norm ∧ d.team_norm = e.team_norm)
    then acc else acc ++ [e]) []

/-- `engine._prepare_odds_frame`: stringify and strip the text columns,
lower-case and filter the side, drop rows with unparseable price/line,
truncate the price to an integer, keep only the `[ODDS_MIN, ODDS_MAX]`
price band, drop `boost` bookmakers, normalize and restrict the market
key, canonicalize, and backfill missing positions from the projection
lookup. -/
def prepare_odds_frame (env : TextEnv) (odds : List RawOdds)
    (proj_positions : List PosEntry) : List CanOdds :=
  let rows := odds.filterMap (fun r =>
    let side := asciiLower (pyStrip (pyValStr r.side))
    let market := pyStrip (pyValStr r.market)
    let bookmaker := pyStrip (pyValStr r.bookmaker_title)
    let event_id := pyStrip (pyValStr r.event_id)
    let event_start := pyStrip (pyValStr r.event_start)
    let player := pyStrip (pyValStr r.player)
    let team := pyStrip (pyValStr r.team)
    if ¬(side = "over" ∨ side = "under") then none
    else
      match r.price_american, r.line with
      | some price_q, some line_q =>
        let price := ratTrunc price_q
        if ¬(ODDS_MIN ≤ price ∧ price ≤ ODDS_MAX) then none
        else if containsSubstring "boost" (asciiLower bookmaker) then none
        else
          let market_key := normalize_market_key market
          if (BASE_MARKET_TO_PROJECTION.lookup market_key).isNone then none
          else
            some
              { odds_index := r.oidx, side := side, market := market,
                market_key := market_key, bookmaker_title := bookmaker,
                event_id := event_id, event_start := event_start,
                player := player, team := team, position := r.position,
                price_american := price, line := line_q,
                player_norm := normalize_name env (PyVal.vstr player),
                team_norm := normalize_team env (PyVal.vstr team),
                pos_norm := normalize_pos env r.position }
      | _, _ => none)
  if proj_positions = [] then rows
  else
    rows.map (fun r =>
      if r.pos_norm = "" then
        match proj_positions.find? (fun e =>
            e.player_norm = r.player_norm ∧ e.team_norm = r.team_norm) with
        | some e =>
          let pos :=
            match e.position with
            | PyVal.vnone => PyVal.vstr ""
            | PyVal.vnan => PyVal.vstr ""
            | v => v
          { r with pos_norm := e.pos_norm, position := pos }
        | none => { r with pos_norm := "", position := PyVal.vstr "" }
      else r)

/-- `engine._combine_exact_matches`: inner join on the canonical triple
(a left merge followed by dropping unmatched rows), plus the quotes left
unmatched. -/
def combine_exact_matches (odds : List CanOdds) (projections : List CanProj) :
    List (CanOdds × CanProj) × List CanOdds :=
  let matched := odds.flatMap (fun o =>
    (projections.filter (fun p =>
      p.player_norm = o.player_norm ∧ p.team_norm = o.team_norm ∧
        p.pos_norm = o.pos_norm)).map (fun p => (o, p)))
  let matchedIdx := matched.map (fun m => m.1.odds_index)
  let unmatched := odds.filter (fun o => o.odds_index ∉ matchedIdx)
  (matched, unmatched)

/-- Replace-or-insert on an association list (a Python dict update). -/
def assocSet (m : List (ℕ × ℕ)) (k v : ℕ) : List (ℕ × ℕ) :=
  if m.any (fun e => e.1 = k) then
    m.map (fun e => if e.1 = k then (k, v) else e)
  else m ++ [(k, v)]

/-- `engine._combine_fuzzy_matches`: run `fuzzy_join` on the raw odds
rows whose index is still unmatched, build the left-to-right index map,
and left-merge the surviving unmatched (canonical) quotes with the
projections on `proj_index`. -/
def combine_fuzzy_matches (env : TextEnv) (scorer : String → String → ℚ)
    (overrides : List OverrideRow) (unmatched_odds : List CanOdds)
    (raw_odds : List RawOdds) (projections : List CanProj) :
    List (CanOdds × Option CanProj) :=
  let unmatchedIdx := unmatched_odds.map (·.odds_index)
  let odds_subset := raw_odds.filter (fun r => r.oidx ∈ unmatchedIdx)
  let left_df := odds_subset.map (fun r =>
    (⟨r.oidx, r.player, r.team, r.position⟩ : FRow))
  let right_df := projections.map (fun p =>
    (⟨p.proj_index, p.player, p.team, p.position⟩ : FRow))
  let fuzzy := fuzzyJoin env scorer overrides left_df right_df
  let indexMap := fuzzy.foldl (fun m rec => assocSet m rec.left_idx rec.right_idx) []
  let subset := unmatched_odds.filter (fun o =>
    (indexMap.lookup o.odds_index).isSome)
  subset.flatMap (fun o =>
    match indexMap.lookup o.odds_index with
    | none => [(o, none)]
    | some pi =>
      match projections.filter (fun p => p.proj_index = pi) with
      | [] => [(o, none)]
      | ps => ps.map (fun p => (o, some p)))

/-! ### Market vig (`engine._market_vig`) -/

/-- A quote as seen by `engine._market_vig` (a prepared odds row
restricted to the columns it touches). -/
structure VigQuote where
  player_norm : String
  team_norm : String
  market_key : String
  side : String
  price_american : ℤ
deriving DecidableEq

/-- Minimum of a rational list (`none` for an empty list, matching a
pandas group that does not exist). -/
def listMinQ : List ℚ → Option ℚ
  | [] => none
  | x :: xs => some (xs.foldl min x)

/-- The implied probabilities of one side of a group. -/
def sideProbs (rows : List (VigQuote × ℚ)) (key : String × String × String)
    (side : String) : List ℚ :=
  (rows.filter (fun r =>
    r.1.side = side ∧ (r.1.player_norm, r.1.team_norm, r.1.market_key) = key)).map
    (fun r => r.2)

/-- Option-valued traversal of a list: `none` as soon as one element
fails (the first `ValueError` raised by a pandas `apply` aborts it). -/
def traverseOption {α β : Type} (f : α → Option β) : List α → Option (List β)
  | [] => some []
  | a :: t =>
    match f a, traverseOption f t with
    | some b, some bs => some (b :: bs)
    | _, _ => none

/-- `engine._market_vig`: lower-case and filter the sides, convert every
surviving price with `american_to_prob` (a zero price raises `ValueError`
out of the whole computation: `Except.error`), then per group take the
minimum implied probability of each side and floor the summed excess at
zero, with one-sided groups marked infinite. -/
def market_vig (odds : List VigQuote) :
    Except Unit (List ((String × String × String) × Vig)) :=
  let rows := odds.map (fun r => { r with side := asciiLower r.side })
  let rows := rows.filter (fun r => r.side = "over" ∨ r.side = "under")
  match traverseOption (fun r =>
      (american_to_prob (r.price_american : ℚ)).map (fun p => (r, p))) rows with
  | none => Except.error ()
  | some withProbs =>
    let keys := (withProbs.map (fun r =>
      (r.1.player_norm, r.1.team_norm, r.1.market_key))).dedup
    Except.ok (keys.map (fun k =>
      match listMinQ (sideProbs withProbs k "over"),
          listMinQ (sideProbs withProbs k "under") with
      | some po, some pu => (k, Vig.fin (max (po + pu - 1) 0))
      | _, _ => (k, Vig.inf)))

/-- `vigs.get(key, float("inf"))` in the scoring loop. -/
def vigLookup (vs : List ((String × String × String) × Vig))
    (k : String × String × String) : Vig :=
  (vs.lookup k).getD Vig.inf

/-- The `combined` matched frame of `engine.join_and_score` (lines
374-377): exact matches concatenated with the fuzzy matches computed on
the quotes the exact phase left unmatched. -/
def combined_matches (env : TextEnv) (scorer : String → String → ℚ)
    (overrides : List OverrideRow) (oddsCan : List CanOdds)
    (raw_odds : List RawOdds) (projections : List CanProj) :
    List (CanOdds × Option CanProj) :=
  let ex := combine_exact_matches oddsCan projections
  (ex.1.map (fun pr => (pr.1, some pr.2))) ++
    combine_fuzzy_matches env scorer overrides ex.2 raw_odds projections

/-- One implied-probability side minimum as the specification describes
it: the least implied probability among a group's quotes on one side
(computed directly from the raw quote list, for comparison with
`market_vig`). -/
def vigSideMin (odds : List VigQuote) (k : String × String × String)
    (side : String) : Option ℚ :=
  listMinQ ((odds.filter (fun r =>
    (asciiLower r.side = "over" ∨ asciiLower r.side = "under") ∧
      asciiLower r.side = side ∧
      (r.player_norm, r.team_norm, r.market_key) = k)).filterMap
    (fun r => american_to_prob (r.price_american : ℚ)))

/-! ### Concrete inputs used to instantiate and refute claims -/

/-- A trivial instantiation of the abstract normal CDF. -/
def cdfZero : ℚ → ℚ := fun _ => 0

/-- A trivial instantiation of the abstract fuzzy scorer. -/
def scorerZero : String → String → ℚ := fun _ _ => 0

/-- A book-count table quoting three books for every group. -/
def booksThree : String × String × String → ℕ := fun _ => 3

/-- A vig table with zero hold for every group. -/
def vigsZero : String × String × String → Vig := fun _ => Vig.fin 0

/-- A combined row with a degenerate (zero) spread, mean equal to the
line, price +101 and injury status `"OK"`: it passes every gate and lands
a positive but small Kelly stake. -/
def rowOK : CombinedRow :=
  { market_key := .vstr "pass_yds", market := .vstr "player_pass_yds",
    stats := [("pass_yds", some 250), ("pass_yds_sd", some 0)],
    line := some 250, price_american := some 101, side := .vstr "over",
    player_norm_odds := .vstr "a", player_norm_proj := .vstr "a",
    team_norm_odds := .vstr "b", team_norm_proj := .vstr "b",
    injury_status := .vstr "OK",
    player_odds := .vstr "A", player_proj := .vstr "A",
    team_odds := .vstr "B", team_proj := .vstr "B",
    position_proj := .vstr "QB", position_odds := .vstr "QB",
    bookmaker_title := .vstr "DK", event_id := .vstr "e",
    event_start := .vstr "s" }

/-- `rowOK` with injury status `"Q"` (the caution set), otherwise
identical. -/
def rowQ : CombinedRow :=
  { rowOK with injury_status := .vstr "Q" }

/-- A projection input row. -/
def projA : ProjIn :=
  { player := .vstr "ab", team := .vstr "t", position := .vstr "QB",
    injury_status := .vstr "OK",
    stats := [("pass_yds", some 250), ("pass_yds_sd", some 10)] }

/-- A second projection row for the same player/team/position with
different statistics (two projection sources). -/
def projB : ProjIn :=
  { projA with stats := [("pass_yds", some 260), ("pass_yds_sd", some 12)] }

/-- A raw odds quote for the `projA` player. -/
def rawQuote (i : ℕ) (side : String) : RawOdds :=
  { oidx := i, side := .vstr side, market := .vstr "player_pass_yds",
    bookmaker_title := .vstr "DK", event_id := .vstr "e",
    event_start := .vstr "s", player := .vstr "ab", team := .vstr "t",
    position := .vstr "QB", price_american := some (-110),
    line := some (511 / 2) }

/-- The duplicated-projection match universe (`projA` and `projB` share a
canonical triple). -/
def dupProjs : List CanProj :=
  prepare_projection_frame asciiEnv [projA, projB]

/-- A single-projection match universe. -/
def oneProj : List CanProj :=
  prepare_projection_frame asciiEnv [projA]

/-- The fuzzy-join left frame for the manual-override scenario: two
quotes (an over and an under) with the same canonical triple. -/
def ovrLeft : List FRow :=
  [⟨0, .vstr "ab", .vstr "t", .vstr "QB"⟩,
   ⟨1, .vstr "ab", .vstr "t", .vstr "QB"⟩]

/-- The fuzzy-join right frame for the manual-override scenario: a single
projection under a different name. -/
def ovrRight : List FRow :=
  [⟨0, .vstr "cd", .vstr "t", .vstr "QB"⟩]

/-- A manual-override row mapping the quotes' triple to the projection's
triple. -/
def ovrRow : OverrideRow :=
  ⟨.vstr "ab", .vstr "t", .vstr "QB", .vstr "cd", .vstr "t", .vstr "QB"⟩

/-- A `_market_vig` input quote with an American price of zero (invalid
odds). -/
def zeroPriceQuote : VigQuote :=
  ⟨"a", "b", "m", "over", 0⟩

/-- The prepared (canonicalized) form of `rawQuote 0 "over"`. -/
def sampleCanOdds : CanOdds :=
  { odds_index := 0, side := "over", market := "player_pass_yds",
    market_key := "pass_yds", bookmaker_title := "DK", event_id := "e",
    event_start := "s", player := "ab", team := "t",
    position := .vstr "QB", price_american := -110, line := 511 / 2,
    player_norm := "ab", team_norm := "t", pos_norm := "QB" }

/-- A raw odds row whose price `500.5` lies outside the closed
`[-200, 500]` band but truncates to `500`. -/
def fracPriceRow : RawOdds :=
  { oidx := 0, side := .vstr "over", market := .vstr "player_pass_yds",
    bookmaker_title := .vstr "DK", event_id := .vstr "e",
    event_start := .vstr "s", player := .vstr "al", team := .vstr "kc",
    position := .vstr "QB", price_american := some (1001 / 2),
    line := some (5 / 2) }

/-- A raw odds row from a `boost` bookmaker (caught by the silent boost
filter). -/
def boostRow : RawOdds :=
  { fracPriceRow with
    bookmaker_title := PyVal.vstr "Boosted",
    price_american := some 100 }

/-! ## Theorems -/

/-- Python `round` is the identity on integers. -/
theorem pyRound_intCast (n : ℤ) : pyRound (n : ℚ) = n := by
  unfold pyRound
  rw [Int.floor_intCast]
  norm_num

/-- Claim C2, part refuted: the claim asserts the odds round-trip
recovers every non-zero price, but `american_to_prob 100 = 1/2` and the
`0.5` branch of `prob_to_american` returns the even-money favourite
convention `-100`, which is not `100` within any rounding tolerance. -/
theorem c2_counterexample :
    (american_to_prob 100).bind prob_to_american = some (-100) ∧
      ((-100 : ℤ) ≠ 100) ∧ 1 < |(-100 : ℤ) - 100| := by
  refine ⟨by decide, by decide, by decide⟩

/-- Claim C2 (amended): for every non-zero price `P`,
`american_to_prob P` lies strictly in `(0, 1)`; the round-trip through
`prob_to_american` recovers `P` exactly for `P > 100` or `P ≤ -100`
(prices in `(-100, 100]` return the equivalent price of the opposite
sign instead, breaking the round-trip there). -/
theorem c2_round_trip :
    (∀ P : ℚ, P ≠ 0 → ∃ p, american_to_prob P = some p ∧ 0 < p ∧ p < 1) ∧
    (∀ P : ℤ, 100 < P ∨ P ≤ -100 →
      (american_to_prob (P : ℚ)).bind prob_to_american = some P) := by
  constructor
  · intro P hP
    unfold american_to_prob
    rw [if_neg hP]
    rcases lt_or_gt_of_ne hP with hneg | hpos
    · rw [if_neg (by linarith)]
      refine ⟨_, rfl, div_pos (by linarith) (by linarith), ?_⟩
      rw [div_lt_one (by linarith)]
      linarith
    · rw [if_pos hpos]
      refine ⟨_, rfl, div_pos (by norm_num) (by linarith), ?_⟩
      rw [div_lt_one (by linarith)]
      linarith
  · intro P hP
    rcases hP with hbig | hsmall
    · have hq : (100 : ℚ) < (P : ℚ) := by exact_mod_cast hbig
      have hne : (P : ℚ) ≠ 0 := by linarith
      unfold american_to_prob
      rw [if_neg hne, if_pos (by linarith)]
      show prob_to_american (100 / ((P : ℚ) + 100)) = some P
      have hden : (0 : ℚ) < (P : ℚ) + 100 := by linarith
      have hp0 : (0 : ℚ) < 100 / ((P : ℚ) + 100) := div_pos (by norm_num) hden
      have hp2 : 100 / ((P : ℚ) + 100) < 1 / 2 := by
        rw [div_lt_div_iff₀ hden (by norm_num)]
        linarith
      unfold prob_to_american
      rw [if_neg (by push_neg; constructor <;> linarith)]
      rw [if_neg (by linarith), if_pos hp2]
      have harg : 100 * (1 - 100 / ((P : ℚ) + 100)) / (100 / ((P : ℚ) + 100)) =
          (P : ℚ) := by
        field_simp
      rw [harg, pyRound_intCast]
    · have hq : (P : ℚ) ≤ -100 := by exact_mod_cast hsmall
      have hne : (P : ℚ) ≠ 0 := by linarith
      unfold american_to_prob
      rw [if_neg hne, if_neg (by linarith)]
      show prob_to_american (-(P : ℚ) / (-(P : ℚ) + 100)) = some P
      have hden : (0 : ℚ) < -(P : ℚ) + 100 := by linarith
      rcases eq_or_lt_of_le hq with heq | hlt
      · have hP100 : P = -100 := by exact_mod_cast heq
        subst hP100
        push_cast
        norm_num
        decide
      · have hp2 : 1 / 2 < -(P : ℚ) / (-(P : ℚ) + 100) := by
          rw [div_lt_div_iff₀ (by norm_num) hden]
          linarith
        have hp1 : -(P : ℚ) / (-(P : ℚ) + 100) < 1 := by
          rw [div_lt_one hden]
          linarith
        unfold prob_to_american
        rw [if_neg (by push_neg; constructor <;> linarith)]
        rw [if_pos hp2]
        have hne2 : (1 : ℚ) - -(P : ℚ) / (-(P : ℚ) + 100) ≠ 0 := by
          have hval : (1 : ℚ) - -(P : ℚ) / (-(P : ℚ) + 100) =
              100 / (-(P : ℚ) + 100) := by
            field_simp
          rw [hval]
          exact ne_of_gt (div_pos (by norm_num) hden)
        have harg : -100 * (-(P : ℚ) / (-(P : ℚ) + 100)) /
            (1 - -(P : ℚ) / (-(P : ℚ) + 100)) = (P : ℚ) := by
          field_simp
        rw [harg, pyRound_intCast]

/-- Witness for C2 at the concrete prices `-110` and `250`. -/
theorem c2_round_trip_witness :
    (∃ p, american_to_prob (-110) = some p ∧ 0 < p ∧ p < 1) ∧
      (american_to_prob ((250 : ℤ) : ℚ)).bind prob_to_american = some 250 :=
  ⟨c2_round_trip.1 (-110) (by norm_num), c2_round_trip.2 250 (by norm_num)⟩

/-- Claim C8 (confirmed): for a model probability in `[0, 1]` and a
non-zero American price, `_kelly_fraction` is non-negative and equals
zero exactly when the expected value per unit staked is non-positive. -/
theorem c8_kelly_floor (p : ℚ) (odds : ℤ) (h0 : 0 ≤ p) (h1 : p ≤ 1)
    (hodds : odds ≠ 0) :
    0 ≤ kelly_fraction p odds ∧
      (payout_of odds * p - (1 - p) ≤ 0 → kelly_fraction p odds = 0) := by
  have hpay : 0 < payout_of odds := by
    unfold payout_of
    rcases lt_or_gt_of_ne hodds with h | h
    · rw [if_neg (by omega)]
      have habs : (0 : ℚ) < |(odds : ℚ)| :=
        abs_pos.mpr (Int.cast_ne_zero.mpr hodds)
      positivity
    · rw [if_pos h]
      have : (0 : ℚ) < (odds : ℚ) := by exact_mod_cast h
      positivity
  unfold kelly_fraction
  rw [if_neg (not_le.mpr hpay)]
  refine ⟨le_max_right _ _, fun hev => ?_⟩
  refine max_eq_right ?_
  exact div_nonpos_of_nonpos_of_nonneg hev hpay.le

/-- Witness for C8 at probability `1/2` and price `-110`. -/
theorem c8_kelly_floor_witness :
    0 ≤ kelly_fraction (1 / 2) (-110) ∧
      (payout_of (-110) * (1 / 2) - (1 - 1 / 2) ≤ 0 →
        kelly_fraction (1 / 2) (-110) = 0) :=
  c8_kelly_floor (1 / 2) (-110) (by norm_num) (by norm_num) (by norm_num)

/-- A quote whose `line` cell is `NaN` is skipped by the scoring loop's
missing-value guard. -/
theorem scorePre_line_none (Φ : ℚ → ℚ) (books : String × String × String → ℕ)
    (vigs : String × String × String → Vig) (row : CombinedRow)
    (h : row.line = none) : scorePre Φ books vigs row = none := by
  unfold scorePre
  rw [h]
  cases hmk : row.market_key.truthy
  · simp [hmk]
  · rcases hpc : projection_columns (pyValStr row.market_key) with _ | ⟨mc', sc'⟩
    · simp [hmk, hpc]
    · rcases hm : statOf row mc' with _ | mv <;>
        rcases hsd : statOf row sc' with _ | sv <;>
        rcases hp : row.price_american with _ | pv <;>
        simp [hmk, hpc, hm, hsd, hp]

/-- A quote whose market-mean projection cell is `NaN` is skipped by the
scoring loop's missing-value guard. -/
theorem scorePre_stat_none (Φ : ℚ → ℚ) (books : String × String × String → ℕ)
    (vigs : String × String × String → Vig) (row : CombinedRow)
    (mc sc : String)
    (hcols : projection_columns (pyValStr row.market_key) = some (mc, sc))
    (h : statOf row mc = none) : scorePre Φ books vigs row = none := by
  unfold scorePre
  split
  · rfl
  split
  · rfl
  rename_i mc' sc' heq
  rw [hcols] at heq
  injection heq with heq'
  injection heq' with h1 h2
  subst h1
  subst h2
  rw [h]
  cases hmk : row.market_key.truthy
  · simp [hmk]
  · rcases hsd : statOf row sc with _ | sv <;>
      rcases hl : row.line with _ | lv <;>
      rcases hp : row.price_american with _ | pv <;>
      simp [hmk, hcols, hsd, hl, hp]

/-- `scoreRow` emits nothing when `scorePre` skips. -/
theorem scoreRow_none_of_pre (Φ : ℚ → ℚ) (books : String × String × String → ℕ)
    (vigs : String × String × String → Vig) (row : CombinedRow)
    (h : scorePre Φ books vigs row = none) :
    scoreRow Φ books vigs row = none := by
  unfold scoreRow
  rw [h]

/-- Claim C7 (confirmed): with a degenerate spread (`sd ≤ 0` or
`sd = NaN`), `prob_over` is exactly `1`, `0` or `1/2` by deterministic
comparison of mean and line (`prob_under` with the comparison reversed);
a `NaN` mean or line yields a `NaN` probability, and `join_and_score`'s
loop skips any quote whose line or market-mean cell is `NaN`. -/
theorem c7_degenerate_probability (Φ : ℚ → ℚ) (line mean : ℚ) (sd : Option ℚ)
    (hdeg : sd = none ∨ ∃ s, sd = some s ∧ s ≤ 0) :
    (prob_over Φ (some line) (some mean) sd =
      some (if mean > line then 1 else if mean < line then 0 else 1 / 2)) ∧
    (prob_under Φ (some line) (some mean) sd =
      some (if mean < line then 1 else if mean > line then 0 else 1 / 2)) ∧
    prob_over Φ none (some mean) sd = none ∧
    prob_over Φ (some line) none sd = none ∧
    prob_under Φ none (some mean) sd = none ∧
    prob_under Φ (some line) none sd = none ∧
    (∀ books vigs (row : CombinedRow), row.line = none →
      scoreRow Φ books vigs row = none) ∧
    (∀ books vigs (row : CombinedRow) mc sc,
      projection_columns (pyValStr row.market_key) = some (mc, sc) →
      statOf row mc = none → scoreRow Φ books vigs row = none) := by
  have hrow : ∀ books vigs (row : CombinedRow), row.line = none →
      scoreRow Φ books vigs row = none := fun b v row h =>
    scoreRow_none_of_pre Φ b v row (scorePre_line_none Φ b v row h)
  have hrow2 : ∀ books vigs (row : CombinedRow) mc sc,
      projection_columns (pyValStr row.market_key) = some (mc, sc) →
      statOf row mc = none → scoreRow Φ books vigs row = none :=
    fun b v row mc sc hc h =>
      scoreRow_none_of_pre Φ b v row (scorePre_stat_none Φ b v row mc sc hc h)
  rcases hdeg with rfl | ⟨s, rfl, hle⟩
  · exact ⟨rfl, rfl, rfl, rfl, rfl, rfl, hrow, hrow2⟩
  · refine ⟨?_, ?_, ?_, ?_, ?_, ?_, hrow, hrow2⟩ <;>
      simp [prob_over, prob_under, hle]

/-- Witness for C7 at line `1`, mean `2`, spread `0`. -/
theorem c7_degenerate_probability_witness :
    prob_over cdfZero (some 1) (some 2) (some 0) = some 1 := by
  have h := (c7_degenerate_probability cdfZero 1 2 (some 0)
    (Or.inr ⟨0, rfl, le_rfl⟩)).1
  rw [h]
  norm_num

/-- The pre-injury part of the scoring loop never reads the injury
status. -/
theorem scorePre_set_injury (Φ : ℚ → ℚ) (books : String × String × String → ℕ)
    (vigs : String × String × String → Vig) (row : CombinedRow) (x : PyVal) :
    scorePre Φ books vigs { row with injury_status := x } =
      scorePre Φ books vigs row := by
  cases row
  rfl

/-- `_finalize_units` is zero for non-positive Kelly and otherwise lands
in the `[0.2, 1.5]` unit band. -/
theorem finalize_units_cases (k : ℚ) :
    finalize_units k = 0 ∨
      (1 / 5 ≤ finalize_units k ∧ finalize_units k ≤ 3 / 2) := by
  unfold finalize_units
  split
  · exact Or.inl rfl
  · refine Or.inr ⟨le_min (le_max_right _ _) (by norm_num), min_le_right _ _⟩

/-- Halving commutes with the zero floor. -/
theorem max_halve (k : ℚ) : max (k * (1 / 2)) 0 = max k 0 / 2 := by
  rcases le_total k 0 with h | h
  · rw [max_eq_right (by linarith), max_eq_right h]
    norm_num
  · rw [max_eq_left (by linarith), max_eq_left h]
    ring

/-- Claim C1 (amended): for a quote passing all gates with a caution
injury status (`"Q"`/`"D"`), the emitted Kelly fraction is exactly half
of the `"OK"` computation, but the emitted unit size is the halved unit
size re-clamped into the `[0.2, 1.5]` band (the final clamp at
engine.py lines 479-480 runs after the halving), so it equals half only
when the halved unit still reaches `0.2`. -/
theorem c1_injury_halving (Φ : ℚ → ℚ) (books : String × String × String → ℕ)
    (vigs : String × String × String → Vig) (row : CombinedRow)
    (hhalf : asciiUpper (pyGetStr row.injury_status) ∈ INJURY_HALF_STATUSES)
    (hsome : (scoreRow Φ books vigs row).isSome = true) :
    ∃ rec recOK,
      scoreRow Φ books vigs row = some rec ∧
      scoreRow Φ books vigs { row with injury_status := .vstr "OK" } =
        some recOK ∧
      rec.kelly_fraction = recOK.kelly_fraction / 2 ∧
      rec.unit_size =
        (if recOK.unit_size = 0 then 0 else max (recOK.unit_size / 2) (1 / 5)) := by
  rcases hpre : scorePre Φ books vigs row with _ | pre
  · rw [scoreRow_none_of_pre Φ books vigs row hpre] at hsome
    simp at hsome
  obtain ⟨m, s, l, p, ip, pm, ev, z, k0⟩ := pre
  have hdrop : asciiUpper (pyGetStr row.injury_status) ∉ INJURY_DROP_STATUSES := by
    simp only [INJURY_HALF_STATUSES, List.mem_cons, List.mem_singleton,
      List.not_mem_nil, or_false] at hhalf
    rcases hhalf with h | h <;> simp [INJURY_DROP_STATUSES, h]
  have hpreOK : scorePre Φ books vigs { row with injury_status := .vstr "OK" } =
      some (m, s, l, p, ip, pm, ev, z, k0) := by
    rw [scorePre_set_injury]
    exact hpre
  have hOKinj : asciiUpper (pyGetStr
      ({ row with injury_status := .vstr "OK" } : CombinedRow).injury_status) =
      "OK" := by
    cases row
    rfl
  unfold scoreRow
  rw [hpre, hpreOK]
  simp only [hOKinj]
  rw [if_neg hdrop, if_neg (by decide : ¬ ("OK" ∈ INJURY_DROP_STATUSES))]
  rw [if_pos hhalf, if_pos hhalf,
    if_neg (by decide : ¬ ("OK" ∈ INJURY_HALF_STATUSES)),
    if_neg (by decide : ¬ ("OK" ∈ INJURY_HALF_STATUSES))]
  refine ⟨_, _, rfl, rfl, ?_, ?_⟩
  · exact max_halve k0
  · rcases finalize_units_cases k0 with hz | ⟨hlo, hhi⟩ <;>
      set u := finalize_units k0 with hu
    · rw [hz]
      norm_num
    · have hupos : 0 < u := lt_of_lt_of_le (by norm_num) hlo
      have hmaxu : max u 0 = u := max_eq_left hupos.le
      have hmaxh : max (u * (1 / 2)) 0 = u * (1 / 2) :=
        max_eq_left (by positivity)
      rw [hmaxu, hmaxh]
      rw [if_pos (by positivity : u * (1 / 2) > 0), if_pos (hupos)]
      have hBu : min (max u (1 / 5)) (3 / 2) = u := by
        rw [max_eq_left (by linarith), min_eq_left (by linarith)]
      rw [hBu]
      rw [if_neg (by positivity : ¬ u = 0)]
      have h34 : max (u * (1 / 2)) (1 / 5) ≤ 3 / 2 :=
        max_le (by linarith) (by norm_num)
      rw [min_eq_left h34]
      ring_nf

/-- Witness for C1: the concrete caution-status row `rowQ`. -/
theorem c1_injury_halving_witness :
    ∃ rec recOK,
      scoreRow cdfZero booksThree vigsZero rowQ = some rec ∧
      scoreRow cdfZero booksThree vigsZero
        { rowQ with injury_status := .vstr "OK" } = some recOK ∧
      rec.kelly_fraction = recOK.kelly_fraction / 2 ∧
      rec.unit_size =
        (if recOK.unit_size = 0 then 0 else max (recOK.unit_size / 2) (1 / 5)) :=
  c1_injury_halving cdfZero booksThree vigsZero rowQ (by decide) (by decide)

/-- Claim C1, part refuted: for `rowQ` (injury `"Q"`, otherwise identical
to `rowOK`), the emitted Kelly fraction is half of the `"OK"` value, but
the emitted unit size is `0.2` — the band clamp, not half of `0.2475`. -/
theorem c1_counterexample :
    rowQ = { rowOK with injury_status := .vstr "Q" } ∧
    (scoreRow cdfZero booksThree vigsZero rowQ).map (·.kelly_fraction) =
      some (1 / 808) ∧
    (scoreRow cdfZero booksThree vigsZero rowOK).map (·.kelly_fraction) =
      some (1 / 404) ∧
    (scoreRow cdfZero booksThree vigsZero rowQ).map (·.unit_size) =
      some (1 / 5) ∧
    (scoreRow cdfZero booksThree vigsZero rowOK).map (·.unit_size) =
      some (25 / 101) ∧
    (1 / 5 : ℚ) ≠ (25 / 101) / 2 :=
  ⟨rfl, by decide, by decide, by decide, by decide, by decide⟩

/-- `traverseOption` of a pointwise-`some` function succeeds. -/
theorem traverseOption_map {α β : Type} (l : List α) (f : α → Option β)
    (g : α → β) (h : ∀ a ∈ l, f a = some (g a)) :
    traverseOption f l = some (l.map g) := by
  induction l with
  | nil => rfl
  | cons a t ih =>
    have ha := h a (by simp)
    have ht := ih (fun b hb => h b (by simp [hb]))
    simp [traverseOption, ha, ht]

/-- `filterMap` of a pointwise-`some` function is a `map`. -/
theorem filterMap_congr_some {α β : Type} (l : List α) (f : α → Option β)
    (g : α → β) (h : ∀ a ∈ l, f a = some (g a)) :
    l.filterMap f = l.map g := by
  induction l with
  | nil => rfl
  | cons a t ih =>
    have ha := h a (by simp)
    have ht := ih (fun b hb => h b (by simp [hb]))
    simp [List.filterMap_cons, ha, ht]

/-- Looking a key up in a keyed association list built by mapping over a
key list. -/
theorem lookup_keyed {β : Type} [DecidableEq (String × String × String)]
    (ks : List (String × String × String))
    (f : String × String × String → β) (k : String × String × String) :
    (ks.map (fun k => (k, f k))).lookup k =
      if k ∈ ks then some (f k) else none := by
  induction ks with
  | nil => simp
  | cons a t ih =>
    by_cases hak : k = a
    · subst hak
      simp [List.lookup]
    · have hbeq : (k == a) = false := by
        simp [hak]
      simp only [List.map_cons, List.lookup, hbeq]
      rw [ih]
      simp [List.mem_cons, hak]

/-- A quote whose market-group vig is infinite is rejected by the quality
gate. -/
theorem scoreRow_vig_inf (Φ : ℚ → ℚ) (books : String × String × String → ℕ)
    (vigs : String × String × String → Vig) (row : CombinedRow)
    (h : vigs (rowKey row) = Vig.inf) :
    scoreRow Φ books vigs row = none := by
  apply scoreRow_none_of_pre
  unfold scorePre
  cases hmk : row.market_key.truthy
  · simp [hmk]
  · rcases hpc : projection_columns (pyValStr row.market_key) with _ | ⟨mc', sc'⟩
    · simp [hmk, hpc]
    · rcases hm : statOf row mc' with _ | mv <;>
        rcases hsd : statOf row sc' with _ | sv <;>
        rcases hl : row.line with _ | lv <;>
        rcases hp : row.price_american with _ | pv <;>
        simp [hmk, hpc, hm, hsd, hl, hp, h]

/-- Claim C9 (amended): when every two-sided quote in the input carries a
non-zero price, `_market_vig` succeeds and assigns each group the excess
of the two lowest implied probabilities over `1`, floored at `0`, with
groups missing a side marked infinite — and an infinite-vig group is
rejected by the scoring loop's quality gate.  A zero price, however,
raises `ValueError` out of `_market_vig` instead of producing an infinite
vig (see the counterexample). -/
theorem c9_market_vig (odds : List VigQuote)
    (hnz : ∀ r ∈ odds,
      (asciiLower r.side = "over" ∨ asciiLower r.side = "under") →
      r.price_american ≠ 0) :
    ∃ vs, market_vig odds = Except.ok vs ∧
      (∀ k po pu, vigSideMin odds k "over" = some po →
        vigSideMin odds k "under" = some pu →
        vigLookup vs k = Vig.fin (max (po + pu - 1) 0)) ∧
      (∀ k, vigSideMin odds k "over" = none ∨ vigSideMin odds k "under" = none →
        vigLookup vs k = Vig.inf) ∧
      (∀ Φ books (row : CombinedRow), vigLookup vs (rowKey row) = Vig.inf →
        scoreRow Φ books (vigLookup vs) row = none) := by
  classical
  set lower : VigQuote → VigQuote :=
    fun r => { r with side := asciiLower r.side } with hlower
  set okside : VigQuote → Bool :=
    fun r => decide (asciiLower r.side = "over" ∨ asciiLower r.side = "under")
    with hokside
  set base := odds.filter okside with hbase
  set probOf : VigQuote → ℚ :=
    fun r => (american_to_prob (r.price_american : ℚ)).getD 0 with hprobOf
  have hbasenz : ∀ r ∈ base, r.price_american ≠ 0 := by
    intro r hr
    have := List.of_mem_filter hr
    exact hnz r (List.mem_of_mem_filter hr) (by simpa [hokside] using this)
  have hatp : ∀ r ∈ base,
      american_to_prob ((r.price_american : ℤ) : ℚ) = some (probOf r) := by
    intro r hr
    have hz : ((r.price_american : ℤ) : ℚ) ≠ 0 :=
      Int.cast_ne_zero.mpr (hbasenz r hr)
    simp only [hprobOf]
    unfold american_to_prob
    rw [if_neg hz]
    split <;> rfl
  -- the filtered, side-lowered frame of `market_vig` is `base.map lower`
  have hrows : (odds.map lower).filter
      (fun r => decide (r.side = "over" ∨ r.side = "under")) =
      base.map lower := by
    rw [List.filter_map]
    rfl
  -- mapM succeeds
  have hmapM : traverseOption (fun r =>
      (american_to_prob ((r.price_american : ℤ) : ℚ)).map (fun p => (r, p)))
      (base.map lower) =
      some ((base.map lower).map (fun r => (r, probOf r))) := by
    apply traverseOption_map
    intro a ha
    rcases List.mem_map.mp ha with ⟨r, hr, rfl⟩
    show (american_to_prob ((r.price_american : ℤ) : ℚ)).map
        (fun p => (lower r, p)) = some (lower r, probOf r)
    rw [hatp r hr]
    rfl
  have hW : ((base.map lower).map (fun r => (r, probOf r))) =
      base.map (fun r => (lower r, probOf r)) := by
    rw [List.map_map]
    apply List.map_congr_left
    intro r _
    rfl
  -- the sideProbs of the final frame, reading back to the input quotes
  have hside : ∀ (k : String × String × String) (side : String),
      sideProbs (base.map (fun r => (lower r, probOf r))) k side =
        ((odds.filter (fun r =>
          decide ((asciiLower r.side = "over" ∨ asciiLower r.side = "under") ∧
            asciiLower r.side = side ∧
            (r.player_norm, r.team_norm, r.market_key) = k))).map probOf) := by
    intro k side
    unfold sideProbs
    rw [List.filter_map, List.map_map]
    rw [hbase, List.filter_filter]
    congr 1
    apply List.filter_congr
    intro r _
    simp only [Function.comp, hlower, hokside, Bool.decide_and]
    simp [Bool.and_comm, Bool.and_left_comm, Bool.and_assoc]
  have hsidemin : ∀ (k : String × String × String) (side : String),
      listMinQ (sideProbs (base.map (fun r => (lower r, probOf r))) k side) =
        vigSideMin odds k side := by
    intro k side
    rw [hside k side]
    unfold vigSideMin
    congr 1
    refine (filterMap_congr_some _ _ probOf ?_).symm
    intro r hr
    have hrb : r ∈ base := by
      rw [hbase]
      refine List.mem_filter.mpr ⟨List.mem_of_mem_filter hr, ?_⟩
      have := List.of_mem_filter hr
      simp only [decide_eq_true_eq] at this
      simp [hokside, this.1]
    exact hatp r hrb
  -- assemble the output table
  set keyOfQ : VigQuote → String × String × String :=
    fun r => (r.player_norm, r.team_norm, r.market_key) with hkeyOfQ
  set W := base.map (fun r => (lower r, probOf r)) with hWdef
  set F : (String × String × String) → Vig := fun k =>
    match vigSideMin odds k "over", vigSideMin odds k "under" with
    | some po, some pu => Vig.fin (max (po + pu - 1) 0)
    | _, _ => Vig.inf
    with hF
  set K := (W.map (fun rp =>
    (rp.1.player_norm, rp.1.team_norm, rp.1.market_key))).dedup with hK
  have hmv : market_vig odds = Except.ok (K.map (fun k => (k, F k))) := by
    simp only [market_vig]
    rw [← hlower, hrows, hmapM, hW]
    simp only [Option.map_some, Option.map_none]
    rw [← hK]
    congr 1
    apply List.map_congr_left
    intro k _
    rw [hsidemin k "over", hsidemin k "under"]
    simp only [hF]
    rcases vigSideMin odds k "over" with _ | po <;>
      rcases vigSideMin odds k "under" with _ | pu <;> rfl
  have hlookup : ∀ k,
      vigLookup (K.map (fun k => (k, F k))) k =
        if k ∈ K then F k else Vig.inf := by
    intro k
    unfold vigLookup
    rw [lookup_keyed]
    by_cases hk : k ∈ K
    · rw [if_pos hk, if_pos hk]
      rfl
    · rw [if_neg hk, if_neg hk]
      rfl
  have hmem : ∀ k side x, vigSideMin odds k side = some x → k ∈ K := by
    intro k side x hmin
    unfold vigSideMin at hmin
    cases hl : ((odds.filter (fun r =>
        decide ((asciiLower r.side = "over" ∨ asciiLower r.side = "under") ∧
          asciiLower r.side = side ∧
          (r.player_norm, r.team_norm, r.market_key) = k))).filterMap
        (fun r => american_to_prob ((r.price_american : ℤ) : ℚ))) with
    | nil =>
      rw [hl] at hmin
      simp [listMinQ] at hmin
    | cons a t =>
      have hane : a ∈ (odds.filter (fun r =>
          decide ((asciiLower r.side = "over" ∨ asciiLower r.side = "under") ∧
            asciiLower r.side = side ∧
            (r.player_norm, r.team_norm, r.market_key) = k))).filterMap
          (fun r => american_to_prob ((r.price_american : ℤ) : ℚ)) := by
        rw [hl]
        simp
      rcases List.mem_filterMap.mp hane with ⟨r, hrf, _⟩
      have hcond := List.of_mem_filter hrf
      simp only [decide_eq_true_eq] at hcond
      have hrodds := List.mem_of_mem_filter hrf
      have hrbase : r ∈ base := by
        rw [hbase]
        exact List.mem_filter.mpr ⟨hrodds, by simp [hokside, hcond.1]⟩
      rw [hK, List.mem_dedup, hWdef, List.map_map]
      refine List.mem_map.mpr ⟨r, hrbase, ?_⟩
      simp only [Function.comp]
      rw [show (lower r).player_norm = r.player_norm from rfl,
        show (lower r).team_norm = r.team_norm from rfl,
        show (lower r).market_key = r.market_key from rfl]
      exact hcond.2.2
  refine ⟨K.map (fun k => (k, F k)), hmv, ?_, ?_, ?_⟩
  · intro k po pu hpo hpu
    rw [hlookup k, if_pos (hmem k "over" po hpo)]
    simp only [hF, hpo, hpu]
  · intro k hnone
    by_cases hk : k ∈ K
    · rw [hlookup k, if_pos hk]
      simp only [hF]
      rcases hnone with hx | hx
      · rw [hx]
        all_goals rcases vigSideMin odds k "under" with _ | pu <;> rfl
      · rw [hx]
        all_goals rcases vigSideMin odds k "over" with _ | po <;> rfl
    · rw [hlookup k, if_neg hk]
  · intro Φ books row h
    exact scoreRow_vig_inf Φ books (vigLookup _) row h

/-- Witness for C9 on a two-sided `-110`/`-110` market. -/
theorem c9_market_vig_witness :
    ∃ vs, market_vig [⟨"a", "b", "m", "over", -110⟩,
        ⟨"a", "b", "m", "under", -110⟩] = Except.ok vs ∧
      (∀ k po pu,
        vigSideMin [⟨"a", "b", "m", "over", -110⟩,
          ⟨"a", "b", "m", "under", -110⟩] k "over" = some po →
        vigSideMin [⟨"a", "b", "m", "over", -110⟩,
          ⟨"a", "b", "m", "under", -110⟩] k "under" = some pu →
        vigLookup vs k = Vig.fin (max (po + pu - 1) 0)) ∧
      (∀ k, vigSideMin [⟨"a", "b", "m", "over", -110⟩,
          ⟨"a", "b", "m", "under", -110⟩] k "over" = none ∨
        vigSideMin [⟨"a", "b", "m", "over", -110⟩,
          ⟨"a", "b", "m", "under", -110⟩] k "under" = none →
        vigLookup vs k = Vig.inf) ∧
      (∀ Φ books (row : CombinedRow), vigLookup vs (rowKey row) = Vig.inf →
        scoreRow Φ books (vigLookup vs) row = none) :=
  c9_market_vig _ (by decide)

/-- Claim C9, part refuted: a group containing a zero (invalid) price
makes `_market_vig` raise `ValueError` out of the whole computation
instead of treating the group's vig as infinite. -/
theorem c9_counterexample :
    zeroPriceQuote.price_american = 0 ∧
    asciiLower zeroPriceQuote.side = "over" ∧
    market_vig [zeroPriceQuote] = Except.error () :=
  ⟨rfl, rfl, rfl⟩

/-- `prepare_mem_spec` in the no-lookup case: direct analysis of the
row-building function. -/
theorem prepare_mem_spec_nil (env : TextEnv) (odds : List RawOdds) :
    ∀ row ∈ prepare_odds_frame env odds [],
      ∃ r ∈ odds, ∃ q : ℚ, r.price_american = some q ∧
        row.odds_index = r.oidx ∧
        row.price_american = ratTrunc q ∧
        row.bookmaker_title = pyStrip (pyValStr r.bookmaker_title) ∧
        (ODDS_MIN ≤ ratTrunc q ∧ ratTrunc q ≤ ODDS_MAX) ∧
        containsSubstring "boost"
          (asciiLower (pyStrip (pyValStr r.bookmaker_title))) = false := by
  intro row hrow
  unfold prepare_odds_frame at hrow
  rw [if_pos rfl] at hrow
  rcases List.mem_filterMap.mp hrow with ⟨r, hr, heq⟩
  refine ⟨r, hr, ?_⟩
  simp only [] at heq
  split at heq
  · exact absurd heq (by simp)
  split at heq
  case h_2 => exact absurd heq (by simp)
  split at heq
  · exact absurd heq (by simp)
  split at heq
  · exact absurd heq (by simp)
  split at heq
  · exact absurd heq (by simp)
  rename_i pv lv hpv hlv hband hboost hsupp
  injection heq with heq'
  subst heq'
  refine ⟨pv, hpv, rfl, rfl, rfl, not_not.mp hband, ?_⟩
  simpa using hboost

/-- Every row surviving `_prepare_odds_frame` records, for some raw input
row, the truncated price inside the band, the stripped bookmaker title
free of `boost`, and that raw row's index. -/
theorem prepare_mem_spec (env : TextEnv) (odds : List RawOdds)
    (lookup : List PosEntry) :
    ∀ row ∈ prepare_odds_frame env odds lookup,
      ∃ r ∈ odds, ∃ q : ℚ, r.price_american = some q ∧
        row.odds_index = r.oidx ∧
        row.price_american = ratTrunc q ∧
        row.bookmaker_title = pyStrip (pyValStr r.bookmaker_title) ∧
        (ODDS_MIN ≤ ratTrunc q ∧ ratTrunc q ≤ ODDS_MAX) ∧
        containsSubstring "boost"
          (asciiLower (pyStrip (pyValStr r.bookmaker_title))) = false := by
  intro row hrow
  unfold prepare_odds_frame at hrow
  split at hrow
  case isTrue h =>
    subst h
    exact prepare_mem_spec_nil env odds row
      (by unfold prepare_odds_frame; rw [if_pos rfl]; exact hrow)
  case isFalse h =>
    rcases List.mem_map.mp hrow with ⟨row0, hrow0, rfl⟩
    rcases prepare_mem_spec_nil env odds row0
      (by unfold prepare_odds_frame; rw [if_pos rfl]; exact hrow0) with
      ⟨r, hr, q, hq, hidx, hprice, hbook, hband, hboost⟩
    refine ⟨r, hr, q, hq, ?_, ?_, ?_, hband, hboost⟩ <;>
      · split
        all_goals try split
        all_goals first
          | exact hidx | exact hprice | exact hbook
          | simpa using hidx | simpa using hprice | simpa using hbook

/-- Claim C10 (amended): `_prepare_odds_frame` silently drops every row
whose *truncated integer* price lies outside the closed `[-200, 500]`
band or whose bookmaker title contains `boost` case-insensitively — such
rows reach neither the matcher nor the book-count/vig aggregations, which
are computed from the prepared frame.  The band test runs after
`astype(int)` truncation, so a fractional price just outside the band
(e.g. `500.5`) is kept (see the counterexample). -/
theorem c10_prepare_filters (env : TextEnv) (odds : List RawOdds)
    (lookup : List PosEntry) :
    (∀ row ∈ prepare_odds_frame env odds lookup,
      (ODDS_MIN ≤ row.price_american ∧ row.price_american ≤ ODDS_MAX) ∧
      containsSubstring "boost" (asciiLower row.bookmaker_title) = false) ∧
    ((odds.map (fun r => r.oidx)).Nodup →
      ∀ r ∈ odds, ∀ q : ℚ, r.price_american = some q →
      (¬(ODDS_MIN ≤ ratTrunc q ∧ ratTrunc q ≤ ODDS_MAX) ∨
        containsSubstring "boost"
          (asciiLower (pyStrip (pyValStr r.bookmaker_title))) = true) →
      r.oidx ∉ (prepare_odds_frame env odds lookup).map
        (fun c => c.odds_index)) := by
  constructor
  · intro row hrow
    rcases prepare_mem_spec env odds lookup row hrow with
      ⟨r, hr, q, hq, hidx, hprice, hbook, hband, hboost⟩
    rw [hprice, hbook]
    exact ⟨hband, hboost⟩
  · intro hnodup r hr q hq hbad hmem
    rcases List.mem_map.mp hmem with ⟨row, hrow, hidx2⟩
    rcases prepare_mem_spec env odds lookup row hrow with
      ⟨r', hr', q', hq', hidx, hprice, hbook, hband, hboost⟩
    have hrr : r' = r :=
      List.inj_on_of_nodup_map hnodup hr' hr (by rw [← hidx]; exact hidx2)
    subst hrr
    rw [hq] at hq'
    injection hq' with hqq
    subst hqq
    rcases hbad with h | h
    · exact h hband
    · rw [hboost] at h
      exact absurd h (by simp)

/-- Witness for C10: a quote from a `Boosted` bookmaker is dropped. -/
theorem c10_prepare_filters_witness :
    boostRow.oidx ∉ (prepare_odds_frame asciiEnv [boostRow] []).map
      (fun c => c.odds_index) :=
  (c10_prepare_filters asciiEnv [boostRow] []).2 (by decide) boostRow
    (by decide) 100 (by rfl) (Or.inr (by decide))

/-- Claim C10, part refuted: the raw price `500.5` lies outside the
closed band `[-200, 500]`, yet the row is kept — the band test applies to
the truncated integer price `500`. -/
theorem c10_counterexample :
    fracPriceRow.price_american = some (1001 / 2) ∧
    ((500 : ℚ) < 1001 / 2) ∧
    (prepare_odds_frame asciiEnv [fracPriceRow] []).map
      (fun r => (r.odds_index, r.price_american)) = [(0, 500)] :=
  ⟨rfl, by norm_num, by decide⟩

/-- Claim C6 (confirmed): a quote with an exact canonical-triple match is
paired in the exact phase, is absent from the unmatched set, and the
fuzzy phase — which `join_and_score` runs only on the unmatched quotes —
never produces a row for it, whatever the scorer and override table. -/
theorem c6_exact_wins (env : TextEnv) (scorer : String → String → ℚ)
    (overrides : List OverrideRow) (oddsCan : List CanOdds)
    (projections : List CanProj) (raw_odds : List RawOdds) (o : CanOdds)
    (ho : o ∈ oddsCan)
    (hmatch : ∃ p ∈ projections, p.player_norm = o.player_norm ∧
      p.team_norm = o.team_norm ∧ p.pos_norm = o.pos_norm) :
    o.odds_index ∈ (combine_exact_matches oddsCan projections).1.map
      (fun pr => pr.1.odds_index) ∧
    (∀ u ∈ (combine_exact_matches oddsCan projections).2,
      u.odds_index ≠ o.odds_index) ∧
    (∀ pr ∈ combine_fuzzy_matches env scorer overrides
        (combine_exact_matches oddsCan projections).2 raw_odds projections,
      pr.1.odds_index ≠ o.odds_index) := by
  obtain ⟨p, hp, hp1, hp2, hp3⟩ := hmatch
  have hmem : o.odds_index ∈ (combine_exact_matches oddsCan projections).1.map
      (fun pr => pr.1.odds_index) := by
    unfold combine_exact_matches
    refine List.mem_map.mpr ⟨(o, p), ?_, rfl⟩
    refine List.mem_flatMap.mpr ⟨o, ho, ?_⟩
    refine List.mem_map.mpr ⟨p, ?_, rfl⟩
    refine List.mem_filter.mpr ⟨hp, ?_⟩
    simp [hp1, hp2, hp3]
  have hunm : ∀ u ∈ (combine_exact_matches oddsCan projections).2,
      u.odds_index ≠ o.odds_index := by
    intro u hu heq
    unfold combine_exact_matches at hu
    have hcond := List.of_mem_filter hu
    simp only [decide_eq_true_eq] at hcond
    apply hcond
    rw [heq]
    unfold combine_exact_matches at hmem
    exact hmem
  refine ⟨hmem, hunm, ?_⟩
  intro pr hpr
  simp only [combine_fuzzy_matches] at hpr
  rcases List.mem_flatMap.mp hpr with ⟨o', ho', hpro⟩
  have ho'unm : o' ∈ (combine_exact_matches oddsCan projections).2 :=
    List.mem_of_mem_filter ho'
  have hfst : pr.1 = o' := by
    rcases hlk : (List.foldl (fun m rec => assocSet m rec.left_idx rec.right_idx)
        [] (fuzzyJoin env scorer overrides
          (List.map (fun r => (⟨r.oidx, r.player, r.team, r.position⟩ : FRow))
            (List.filter (fun r => decide (r.oidx ∈ List.map
              (fun o => o.odds_index)
              (combine_exact_matches oddsCan projections).2)) raw_odds))
          (List.map (fun p =>
            (⟨p.proj_index, p.player, p.team, p.position⟩ : FRow))
            projections))).lookup o'.odds_index with _ | pi
    · rw [hlk] at hpro
      simp at hpro
      rw [hpro]
    · rw [hlk] at hpro
      simp only [] at hpro
      rcases hflt : projections.filter (fun p' =>
          decide (p'.proj_index = pi)) with _ | ⟨p0, ps⟩
      · rw [hflt] at hpro
        simp at hpro
        rw [hpro]
      · rw [hflt] at hpro
        rcases List.mem_map.mp hpro with ⟨p', _, rfl⟩
        rfl
  rw [hfst]
  exact hunm o' ho'unm

/-- Witness for C6 on the concrete single-quote, single-projection
scenario. -/
theorem c6_exact_wins_witness :
    sampleCanOdds.odds_index ∈
      (combine_exact_matches [sampleCanOdds] oneProj).1.map
        (fun pr => pr.1.odds_index) ∧
    (∀ u ∈ (combine_exact_matches [sampleCanOdds] oneProj).2,
      u.odds_index ≠ sampleCanOdds.odds_index) ∧
    (∀ pr ∈ combine_fuzzy_matches asciiEnv scorerZero []
        (combine_exact_matches [sampleCanOdds] oneProj).2
        [rawQuote 0 "over"] oneProj,
      pr.1.odds_index ≠ sampleCanOdds.odds_index) :=
  c6_exact_wins asciiEnv scorerZero [] [sampleCanOdds] oneProj
    [rawQuote 0 "over"] sampleCanOdds (by decide) (by decide)

/-- At most one element of a list has a given value of an injectively
mapped field. -/
theorem filter_idx_length_le_one {α : Type} (l : List α) (idx : α → ℕ)
    (h : (l.map idx).Nodup) (i : ℕ) :
    (l.filter (fun a => decide (idx a = i))).length ≤ 1 := by
  induction l with
  | nil => simp
  | cons a t ih =>
    obtain ⟨hnotin, hnd⟩ : (∀ x ∈ t, ¬ idx x = idx a) ∧ (t.map idx).Nodup := by
      simpa using h
    by_cases hai : idx a = i
    · rw [List.filter_cons_of_pos (by simpa using hai)]
      have ht0 : (t.filter (fun b => decide (idx b = i))).length = 0 := by
        rw [List.length_eq_zero, List.filter_eq_nil_iff]
        intro b hb
        simp only [decide_eq_true_eq]
        intro hbi
        exact hnotin b hb (hbi.trans hai.symm)
      rw [List.length_cons, ht0]
    · rw [List.filter_cons_of_neg (by simpa using hai)]
      exact ih hnd

/-- Rows of a flat-map tagged by their generating element: at most one
generator carries the sought index, and each generator yields at most one
row, so at most one row carries the sought index. -/
theorem flatMap_filter_fst_le_one {α β : Type} (l : List α) (g : α → List β)
    (idx : α → ℕ) (fst : β → α) (i : ℕ)
    (hnodup : (l.map idx).Nodup)
    (hlen : ∀ a, (g a).length ≤ 1)
    (hfst : ∀ a, ∀ b ∈ g a, fst b = a) :
    ((l.flatMap g).filter (fun b => decide (idx (fst b) = i))).length ≤ 1 := by
  induction l with
  | nil => simp
  | cons a t ih =>
    rw [List.flatMap_cons, List.filter_append, List.length_append]
    obtain ⟨hnotin, hnd⟩ : (∀ x ∈ t, ¬ idx x = idx a) ∧ (t.map idx).Nodup := by
      simpa using hnodup
    by_cases hai : idx a = i
    · have ht0 : ((t.flatMap g).filter
          (fun b => decide (idx (fst b) = i))).length = 0 := by
        rw [List.length_eq_zero, List.filter_eq_nil_iff]
        intro b hb
        rcases List.mem_flatMap.mp hb with ⟨a', ha', hba'⟩
        rw [hfst a' b hba']
        simp only [decide_eq_true_eq]
        intro hia'
        exact hnotin a' ha' (hia'.trans hai.symm)
      have h1 : ((g a).filter (fun b => decide (idx (fst b) = i))).length ≤
          (g a).length := List.length_filter_le _ _
      have h2 := hlen a
      omega
    · have h0 : ((g a).filter (fun b => decide (idx (fst b) = i))).length = 0 := by
        rw [List.length_eq_zero, List.filter_eq_nil_iff]
        intro b hb
        rw [hfst a b hb]
        simp [hai]
      rw [h0]
      simpa using ih hnd

/-- With pairwise-distinct canonical triples, at most one projection
matches a given triple. -/
theorem filter_triple_length_le_one (projs : List CanProj)
    (hp : projs.Pairwise (fun p q => ¬(p.player_norm = q.player_norm ∧
      p.team_norm = q.team_norm ∧ p.pos_norm = q.pos_norm)))
    (a b c : String) :
    (projs.filter (fun p => decide (p.player_norm = a ∧ p.team_norm = b ∧
      p.pos_norm = c))).length ≤ 1 := by
  induction projs with
  | nil => simp
  | cons p t ih =>
    rcases List.pairwise_cons.mp hp with ⟨hhead, htail⟩
    by_cases hpt : p.player_norm = a ∧ p.team_norm = b ∧ p.pos_norm = c
    · rw [List.filter_cons_of_pos (by simpa using hpt)]
      have ht0 : (t.filter (fun q => decide (q.player_norm = a ∧
          q.team_norm = b ∧ q.pos_norm = c))).length = 0 := by
        rw [List.length_eq_zero, List.filter_eq_nil_iff]
        intro q hq
        simp only [decide_eq_true_eq]
        intro hqt
        exact hhead q hq ⟨hpt.1.trans hqt.1.symm, hpt.2.1.trans hqt.2.1.symm,
          hpt.2.2.trans hqt.2.2.symm⟩
      rw [List.length_cons, ht0]
    · rw [List.filter_cons_of_neg (by simpa using hpt)]
      exact ih htail

/-- The exact phase pairs a quote index with at most one row when quote
indices are distinct and projection triples are pairwise distinct. -/
theorem combine_exact_count_le_one (oddsCan : List CanOdds)
    (projections : List CanProj)
    (hO : (oddsCan.map (fun o => o.odds_index)).Nodup)
    (hPt : projections.Pairwise (fun p q => ¬(p.player_norm = q.player_norm ∧
      p.team_norm = q.team_norm ∧ p.pos_norm = q.pos_norm))) (i : ℕ) :
    ((combine_exact_matches oddsCan projections).1.filter
      (fun pr => decide (pr.1.odds_index = i))).length ≤ 1 := by
  simp only [combine_exact_matches]
  refine flatMap_filter_fst_le_one oddsCan _ (fun o => o.odds_index)
    Prod.fst i hO ?_ ?_
  · intro o
    rw [List.length_map]
    exact filter_triple_length_le_one projections hPt _ _ _
  · intro o b hb
    rcases List.mem_map.mp hb with ⟨p, _, rfl⟩
    rfl

/-- Every row the fuzzy phase produces is keyed by a quote from the
unmatched set. -/
theorem combine_fuzzy_fst_mem (env : TextEnv) (scorer : String → String → ℚ)
    (overrides : List OverrideRow) (unmatched_odds : List CanOdds)
    (raw_odds : List RawOdds) (projections : List CanProj) :
    ∀ pr ∈ combine_fuzzy_matches env scorer overrides unmatched_odds
      raw_odds projections, pr.1 ∈ unmatched_odds := by
  intro pr hpr
  simp only [combine_fuzzy_matches] at hpr
  rcases List.mem_flatMap.mp hpr with ⟨o', ho', hpro⟩
  have ho'unm : o' ∈ unmatched_odds := List.mem_of_mem_filter ho'
  suffices h : pr.1 = o' by
    rw [h]
    exact ho'unm
  rcases hlk : (List.foldl (fun m rec => assocSet m rec.left_idx rec.right_idx)
      [] (fuzzyJoin env scorer overrides
        (List.map (fun r => (⟨r.oidx, r.player, r.team, r.position⟩ : FRow))
          (List.filter (fun r => decide (r.oidx ∈ List.map
            (fun o => o.odds_index) unmatched_odds)) raw_odds))
        (List.map (fun p =>
          (⟨p.proj_index, p.player, p.team, p.position⟩ : FRow))
          projections))).lookup o'.odds_index with _ | pi
  · rw [hlk] at hpro
    simp at hpro
    rw [hpro]
  · rw [hlk] at hpro
    simp only [] at hpro
    rcases hflt : projections.filter (fun p' =>
        decide (p'.proj_index = pi)) with _ | ⟨p0, ps⟩
    · rw [hflt] at hpro
      simp at hpro
      rw [hpro]
    · rw [hflt] at hpro
      rcases List.mem_map.mp hpro with ⟨p', _, rfl⟩
      rfl

/-- The fuzzy phase pairs a quote index with at most one row when the
unmatched quote indices and the projection indices are distinct. -/
theorem combine_fuzzy_count_le_one (env : TextEnv)
    (scorer : String → String → ℚ) (overrides : List OverrideRow)
    (unmatched_odds : List CanOdds) (raw_odds : List RawOdds)
    (projections : List CanProj)
    (hU : (unmatched_odds.map (fun o => o.odds_index)).Nodup)
    (hPi : (projections.map (fun p => p.proj_index)).Nodup) (i : ℕ) :
    ((combine_fuzzy_matches env scorer overrides unmatched_odds raw_odds
      projections).filter
      (fun pr => decide (pr.1.odds_index = i))).length ≤ 1 := by
  simp only [combine_fuzzy_matches]
  refine flatMap_filter_fst_le_one _ _ (fun o : CanOdds => o.odds_index)
    (Prod.fst : CanOdds × Option CanProj → CanOdds) i ?_ ?_ ?_
  · exact List.Nodup.sublist
      (List.Sublist.map _ (List.filter_sublist _)) hU
  · intro o
    rcases hlk : (List.foldl (fun m rec =>
        assocSet m rec.left_idx rec.right_idx) [] (fuzzyJoin env scorer
          overrides (List.map (fun r =>
            (⟨r.oidx, r.player, r.team, r.position⟩ : FRow))
            (List.filter (fun r => decide (r.oidx ∈ List.map
              (fun o => o.odds_index) unmatched_odds)) raw_odds))
          (List.map (fun p =>
            (⟨p.proj_index, p.player, p.team, p.position⟩ : FRow))
            projections))).lookup o.odds_index with _ | pi
    · rw [hlk]
      simp
    · rw [hlk]
      simp only []
      rcases hflt : projections.filter (fun p' =>
          decide (p'.proj_index = pi)) with _ | ⟨p0, ps⟩
      · rw [hflt]
        simp
      · rw [hflt]
        rw [List.length_map]
        have := filter_idx_length_le_one projections (fun p => p.proj_index)
          hPi pi
        rw [hflt] at this
        exact this
  · intro o b hb
    rcases hlk : (List.foldl (fun m rec =>
        assocSet m rec.left_idx rec.right_idx) [] (fuzzyJoin env scorer
          overrides (List.map (fun r =>
            (⟨r.oidx, r.player, r.team, r.position⟩ : FRow))
            (List.filter (fun r => decide (r.oidx ∈ List.map
              (fun o => o.odds_index) unmatched_odds)) raw_odds))
          (List.map (fun p =>
            (⟨p.proj_index, p.player, p.team, p.position⟩ : FRow))
            projections))).lookup o.odds_index with _ | pi
    all_goals rw [hlk] at hb
    · simp at hb
      rw [hb]
    · simp only [] at hb
      rcases hflt : projections.filter (fun p' =>
          decide (p'.proj_index = pi)) with _ | ⟨p0, ps⟩
      · rw [hflt] at hb
        simp at hb
        rw [hb]
      · rw [hflt] at hb
        rcases List.mem_map.mp hb with ⟨p', _, rfl⟩
        rfl

/-- Claim C4 (amended): with distinct quote indices, distinct projection
indices and pairwise-distinct projection canonical triples, the combined
matched set of `join_and_score` pairs each odds quote with at most one
projection row; and a run can pair several quotes with one projection —
the second conjunct evaluates a run in which an over and an under quote
both match projection `0`.  With duplicated canonical triples in the
match universe the exact merge can duplicate a quote (see the
counterexample). -/
theorem c4_quote_multiplicity :
    (∀ (env : TextEnv) (scorer : String → String → ℚ)
      (overrides : List OverrideRow) (oddsCan : List CanOdds)
      (raw_odds : List RawOdds) (projections : List CanProj),
      (oddsCan.map (fun o => o.odds_index)).Nodup →
      (projections.map (fun p => p.proj_index)).Nodup →
      projections.Pairwise (fun p q => ¬(p.player_norm = q.player_norm ∧
        p.team_norm = q.team_norm ∧ p.pos_norm = q.pos_norm)) →
      ∀ i, ((combined_matches env scorer overrides oddsCan raw_odds
        projections).filter
        (fun pr => decide (pr.1.odds_index = i))).length ≤ 1) ∧
    ((combined_matches asciiEnv scorerZero []
        (prepare_odds_frame asciiEnv [rawQuote 0 "over", rawQuote 1 "under"]
          (build_position_lookup oneProj))
        [rawQuote 0 "over", rawQuote 1 "under"] oneProj).filter
      (fun pr => decide ((pr.2.map (fun p => p.proj_index)) =
        some 0))).length = 2 := by
  constructor
  · intro env scorer overrides oddsCan raw_odds projections hO hPi hPt i
    unfold combined_matches
    rw [List.filter_append, List.length_append]
    have hexmap : (((combine_exact_matches oddsCan projections).1.map
        (fun pr => (pr.1, some pr.2))).filter
        (fun pr => decide (pr.1.odds_index = i))).length =
        ((combine_exact_matches oddsCan projections).1.filter
          (fun pr => decide (pr.1.odds_index = i))).length := by
      rw [List.filter_map, List.length_map]
      rfl
    rw [hexmap]
    by_cases hin : i ∈ (combine_exact_matches oddsCan projections).1.map
        (fun pr => pr.1.odds_index)
    · have hfz0 : ((combine_fuzzy_matches env scorer overrides
          (combine_exact_matches oddsCan projections).2 raw_odds
          projections).filter
          (fun pr => decide (pr.1.odds_index = i))).length = 0 := by
        rw [List.length_eq_zero, List.filter_eq_nil_iff]
        intro pr hpr
        have h1 : pr.1 ∈ (combine_exact_matches oddsCan projections).2 :=
          combine_fuzzy_fst_mem env scorer overrides _ raw_odds projections
            pr hpr
        have h2 := List.of_mem_filter h1
        simp only [decide_eq_true_eq] at h2 ⊢
        intro heq
        exact h2 (by rw [heq]; exact hin)
      rw [hfz0]
      have := combine_exact_count_le_one oddsCan projections hO hPt i
      omega
    · have hex0 : ((combine_exact_matches oddsCan projections).1.filter
          (fun pr => decide (pr.1.odds_index = i))).length = 0 := by
        rw [List.length_eq_zero, List.filter_eq_nil_iff]
        intro pr hpr
        simp only [decide_eq_true_eq]
        intro heq
        exact hin (List.mem_map.mpr ⟨pr, hpr, heq⟩)
      rw [hex0]
      have := combine_fuzzy_count_le_one env scorer overrides
        (combine_exact_matches oddsCan projections).2 raw_odds projections
        (List.Nodup.sublist (List.Sublist.map _ (List.filter_sublist _)) hO)
        hPi i
      omega
  · decide

/-- Witness for C4 on the concrete two-quote, one-projection run. -/
theorem c4_quote_multiplicity_witness :
    ((combined_matches asciiEnv scorerZero [] [sampleCanOdds]
      [rawQuote 0 "over"] oneProj).filter
      (fun pr => decide (pr.1.odds_index = 0))).length ≤ 1 :=
  c4_quote_multiplicity.1 asciiEnv scorerZero [] [sampleCanOdds]
    [rawQuote 0 "over"] oneProj (by decide) (by decide) (by decide) 0

/-- Claim C4, part refuted: with two projection rows sharing one
canonical triple (two projection sources for the same player), the exact
merge pairs the single quote with both rows — two combined rows for one
`odds_index`. -/
theorem c4_counterexample :
    ((combined_matches asciiEnv scorerZero []
      (prepare_odds_frame asciiEnv [rawQuote 0 "over"]
        (build_position_lookup dupProjs))
      [rawQuote 0 "over"] dupProjs).filter
      (fun pr => decide (pr.1.odds_index = 0))).length = 2 ∧ (2 : ℕ) > 1 :=
  ⟨by decide, by decide⟩


/-- Any record already in the state survives one manual-pair step. -/
theorem manualStep_recs_mem (st : MatchState) (pr : ℕ × ℕ) (m : MatchRec)
    (h : m ∈ st.recs) : m ∈ (manualStep st pr).recs := by
  unfold manualStep
  split
  · exact h
  · exact List.mem_append_left _ h

/-- Any record already in the state survives the manual-pair loop. -/
theorem manualFoldl_recs_mem (prs : List (ℕ × ℕ)) (st : MatchState)
    (m : MatchRec) (h : m ∈ st.recs) : m ∈ (prs.foldl manualStep st).recs := by
  induction prs generalizing st with
  | nil => exact h
  | cons p t ih => exact ih _ (manualStep_recs_mem st p m h)

/-- Any record already in the state survives one fuzzy step. -/
theorem fuzzyStep_recs_mem (scorer : String → String → ℚ) (right : List FCan)
    (st : MatchState) (row : FCan) (m : MatchRec) (h : m ∈ st.recs) :
    m ∈ (fuzzyStep scorer right st row).recs := by
  simp only [fuzzyStep]
  repeat' split
  all_goals first
    | exact h
    | exact List.mem_append_left _ h

/-- Any record already in the state survives the fuzzy loop. -/
theorem fuzzyFoldl_recs_mem (scorer : String → String → ℚ) (right : List FCan)
    (rows : List FCan) (st : MatchState) (m : MatchRec) (h : m ∈ st.recs) :
    m ∈ (rows.foldl (fuzzyStep scorer right) st).recs := by
  induction rows generalizing st with
  | nil => exact h
  | cons row t ih => exact ih _ (fuzzyStep_recs_mem scorer right st row m h)

/-- Provenance through the manual-pair loop: a record was already present,
or it is a score-100 manual record whose index pair appears in the pair
list. -/
theorem manualFoldl_recs_spec (prs : List (ℕ × ℕ)) (st : MatchState)
    (m : MatchRec) (h : m ∈ (prs.foldl manualStep st).recs) :
    m ∈ st.recs ∨
      (m.score = 100 ∧ m.manual = true ∧ (m.left_idx, m.right_idx) ∈ prs) := by
  induction prs generalizing st with
  | nil => exact Or.inl h
  | cons p t ih =>
    rcases ih (manualStep st p) h with h1 | h1
    · unfold manualStep at h1
      split at h1
      · exact Or.inl h1
      · rcases List.mem_append.1 h1 with h2 | h2
        · exact Or.inl h2
        · rcases List.mem_singleton.1 h2 with rfl
          exact Or.inr ⟨rfl, rfl, by simp⟩
    · exact Or.inr ⟨h1.1, h1.2.1, List.mem_cons_of_mem _ h1.2.2⟩

/-- Provenance through one fuzzy step: a record was already present, or it
is a non-manual record. -/
theorem fuzzyStep_recs_spec (scorer : String → String → ℚ) (right : List FCan)
    (st : MatchState) (row : FCan) (m : MatchRec)
    (h : m ∈ (fuzzyStep scorer right st row).recs) :
    m ∈ st.recs ∨ m.manual = false := by
  simp only [fuzzyStep] at h
  repeat' split at h
  all_goals try exact Or.inl h
  rcases List.mem_append.1 h with h2 | h2
  · exact Or.inl h2
  · rcases List.mem_singleton.1 h2 with rfl
    exact Or.inr rfl

/-- Provenance through the fuzzy loop: a record was already present, or it
is a non-manual record. -/
theorem fuzzyFoldl_recs_spec (scorer : String → String → ℚ)
    (right : List FCan) (rows : List FCan) (st : MatchState) (m : MatchRec)
    (h : m ∈ (rows.foldl (fuzzyStep scorer right) st).recs) :
    m ∈ st.recs ∨ m.manual = false := by
  induction rows generalizing st with
  | nil => exact Or.inl h
  | cons row t ih =>
    rcases ih _ h with h1 | h1
    · exact fuzzyStep_recs_spec scorer right st row m h1
    · exact Or.inr h1

/-- `extractStep` either keeps the running best or switches to the current
choice's index with its score. -/
theorem extractStep_cases (scorer : String → String → ℚ) (q : String)
    (cutoff : ℚ) (best : Option (ℕ × ℚ)) (c : ℕ × String) :
    extractStep scorer q cutoff best c = best ∨
      extractStep scorer q cutoff best c = some (c.1, scorer q c.2) := by
  simp only [extractStep]
  repeat' split
  all_goals simp

/-- If the `extractOne` fold returns an index, that index comes from the
choice list or was already carried by the initial accumulator. -/
theorem extractOne_aux_mem (scorer : String → String → ℚ) (q : String)
    (cutoff : ℚ) (choices : List (ℕ × String)) (init : Option (ℕ × ℚ))
    (i : ℕ) (sc : ℚ)
    (h : choices.foldl (extractStep scorer q cutoff) init = some (i, sc)) :
    (∃ s, (i, s) ∈ choices) ∨ init = some (i, sc) := by
  induction choices generalizing init with
  | nil => exact Or.inr h
  | cons c t ih =>
    rcases ih (extractStep scorer q cutoff init c) h with ⟨s, hs⟩ | h1
    · exact Or.inl ⟨s, List.mem_cons_of_mem _ hs⟩
    · rcases extractStep_cases scorer q cutoff init c with h2 | h2
      · rw [h2] at h1
        exact Or.inr h1
      · rw [h2] at h1
        simp only [Option.some.injEq, Prod.mk.injEq] at h1
        refine Or.inl ⟨c.2, ?_⟩
        have hc : (c.1, c.2) ∈ c :: t := by simp
        exact h1.1 ▸ hc

/-- The winning index returned by `extractOne` belongs to the choices. -/
theorem extractOne_mem (scorer : String → String → ℚ) (q : String)
    (choices : List (ℕ × String)) (cutoff : ℚ) (i : ℕ) (sc : ℚ)
    (h : extractOne scorer q choices cutoff = some (i, sc)) :
    ∃ s, (i, s) ∈ choices := by
  rcases extractOne_aux_mem scorer q cutoff choices none i sc h with h1 | h1
  · exact h1
  · cases h1

/-- One manual-pair step preserves the matching-state invariant. -/
theorem manualStep_inv (st : MatchState) (pr : ℕ × ℕ)
    (h : MatchStateInv st) : MatchStateInv (manualStep st pr) := by
  obtain ⟨hL, hR, hLnd, hRnd⟩ := h
  unfold manualStep
  split
  · exact ⟨hL, hR, hLnd, hRnd⟩
  next hc =>
    push_neg at hc
    refine ⟨?_, ?_, ?_, ?_⟩
    · simp [hL]
    · simp [hR]
    · exact hLnd.append (List.nodup_singleton _) (fun x hx hx2 => by
        rw [List.mem_singleton] at hx2
        subst hx2
        exact hc.2 hx)
    · exact hRnd.append (List.nodup_singleton _) (fun x hx hx2 => by
        rw [List.mem_singleton] at hx2
        subst hx2
        exact hc.1 hx)

/-- The manual-pair loop preserves the matching-state invariant. -/
theorem manualFoldl_inv (prs : List (ℕ × ℕ)) (st : MatchState)
    (h : MatchStateInv st) : MatchStateInv (prs.foldl manualStep st) := by
  induction prs generalizing st with
  | nil => exact h
  | cons p t ih => exact ih _ (manualStep_inv st p h)

/-- One fuzzy step preserves the matching-state invariant: the guard
skips consumed left rows and `extractOne` only ever returns an unconsumed
projection index. -/
theorem fuzzyStep_inv (scorer : String → String → ℚ) (right : List FCan)
    (st : MatchState) (row : FCan) (h : MatchStateInv st) :
    MatchStateInv (fuzzyStep scorer right st row) := by
  obtain ⟨hL, hR, hLnd, hRnd⟩ := h
  simp only [fuzzyStep]
  split
  · exact ⟨hL, hR, hLnd, hRnd⟩
  next h1 =>
    split
    · exact ⟨hL, hR, hLnd, hRnd⟩
    next h2 =>
      split
      · exact ⟨hL, hR, hLnd, hRnd⟩
      next h3 =>
        split
        · exact ⟨hL, hR, hLnd, hRnd⟩
        next h4 =>
          split
          · exact ⟨hL, hR, hLnd, hRnd⟩
          next ridx score heq =>
            obtain ⟨s, hs⟩ := extractOne_mem _ _ _ _ _ _ heq
            obtain ⟨r', hr', hr2⟩ := List.mem_map.1 hs
            obtain ⟨hrmem, hrcond⟩ := List.mem_filter.1 hr'
            simp only [Prod.mk.injEq] at hr2
            have hridx : ridx ∉ st.matchedRight := by
              rw [← hr2.1]
              simpa using hrcond
            refine ⟨?_, ?_, ?_, ?_⟩
            · simp [hL]
            · simp [hR]
            · exact hLnd.append (List.nodup_singleton _) (fun x hx hx2 => by
                rw [List.mem_singleton] at hx2
                subst hx2
                exact h1 hx)
            · exact hRnd.append (List.nodup_singleton _) (fun x hx hx2 => by
                rw [List.mem_singleton] at hx2
                subst hx2
                exact hridx hx)

/-- The fuzzy loop preserves the matching-state invariant. -/
theorem fuzzyFoldl_inv (scorer : String → String → ℚ) (right : List FCan)
    (rows : List FCan) (st : MatchState) (h : MatchStateInv st) :
    MatchStateInv (rows.foldl (fuzzyStep scorer right) st) := by
  induction rows generalizing st with
  | nil => exact h
  | cons row t ih => exact ih _ (fuzzyStep_inv scorer right st row h)

/-- The first manual pair always enters the match state as a score-100
manual record. -/
theorem manualFoldl_head (l r : ℕ) (t : List (ℕ × ℕ)) :
    (⟨l, r, 100, true⟩ : MatchRec) ∈
      (((l, r) :: t).foldl manualStep ⟨[], [], []⟩).recs := by
  have h0 : manualStep ⟨[], [], []⟩ (l, r) = ⟨[⟨l, r, 100, true⟩], [l], [r]⟩ := by
    simp [manualStep]
  rw [List.foldl_cons, h0]
  exact manualFoldl_recs_mem t _ _ (by simp)

/-- Claim C5 (amended): for every scorer — so regardless of any
higher-scoring fuzzy candidate — the first manual pair produced by
`_apply_manual_overrides` appears in `fuzzy_join`'s output as a manual
match with score 100; every manual record in the output has score 100 and
an index pair from the manual pair list; and each projection index and
each quote index is consumed by at most one match record, so a target
projection is consumed by at most one manual pair.  (The original claim's
universal — *every* quote whose triple matches a qualifying override's
left side gets the manual match — fails when two quotes share the
triple.) -/
theorem c5_manual_overrides (env : TextEnv) (scorer : String → String → ℚ)
    (overrides : List OverrideRow) (left_df right_df : List FRow)
    (l r : ℕ)
    (hhead : (applyManualOverrides env (left_df.map (canonicalizeRow env))
      (right_df.map (canonicalizeRow env)) overrides).2.head? = some (l, r)) :
    (⟨l, r, 100, true⟩ : MatchRec) ∈
      fuzzyJoin env scorer overrides left_df right_df ∧
    (∀ m ∈ fuzzyJoin env scorer overrides left_df right_df,
      m.manual = true → m.score = 100 ∧ (m.left_idx, m.right_idx) ∈
        (applyManualOverrides env (left_df.map (canonicalizeRow env))
          (right_df.map (canonicalizeRow env)) overrides).2) ∧
    ((fuzzyJoin env scorer overrides left_df right_df).map
      (fun m => m.right_idx)).Nodup ∧
    ((fuzzyJoin env scorer overrides left_df right_df).map
      (fun m => m.left_idx)).Nodup := by
  obtain ⟨t, ht⟩ : ∃ t, (applyManualOverrides env
      (left_df.map (canonicalizeRow env))
      (right_df.map (canonicalizeRow env)) overrides).2 = (l, r) :: t := by
    rcases hp : (applyManualOverrides env (left_df.map (canonicalizeRow env))
        (right_df.map (canonicalizeRow env)) overrides).2 with _ | ⟨a, t⟩
    · rw [hp] at hhead
      simp at hhead
    · rw [hp] at hhead
      simp only [List.head?_cons, Option.some.injEq] at hhead
      exact ⟨t, by rw [hhead]⟩
  have hinv : MatchStateInv
      (((applyManualOverrides env (left_df.map (canonicalizeRow env))
          (right_df.map (canonicalizeRow env)) overrides).1).foldl
        (fuzzyStep scorer (right_df.map (canonicalizeRow env)))
        (((applyManualOverrides env (left_df.map (canonicalizeRow env))
            (right_df.map (canonicalizeRow env)) overrides).2).foldl
          manualStep ⟨[], [], []⟩)) :=
    fuzzyFoldl_inv _ _ _ _ (manualFoldl_inv _ _
      ⟨rfl, rfl, List.nodup_nil, List.nodup_nil⟩)
  obtain ⟨e1, e2, n1, n2⟩ := hinv
  refine ⟨?_, ?_, ?_, ?_⟩
  · simp only [fuzzyJoin]
    rw [ht]
    exact fuzzyFoldl_recs_mem _ _ _ _ _ (manualFoldl_head l r t)
  · intro m hm hman
    simp only [fuzzyJoin] at hm
    rcases fuzzyFoldl_recs_spec _ _ _ _ _ hm with h1 | h1
    · rcases manualFoldl_recs_spec _ _ _ h1 with h2 | h2
      · cases h2
      · exact ⟨h2.1, h2.2.2⟩
    · rw [hman] at h1
      cases h1
  · show ((fuzzyJoin env scorer overrides left_df right_df).map
      (fun m => m.right_idx)).Nodup
    simp only [fuzzyJoin]
    rw [← e2]
    exact n2
  · show ((fuzzyJoin env scorer overrides left_df right_df).map
      (fun m => m.left_idx)).Nodup
    simp only [fuzzyJoin]
    rw [← e1]
    exact n1

/-- Witness for C5 on the concrete override scenario: two same-triple
quotes, one projection, one override. -/
theorem c5_manual_overrides_witness :
    (⟨0, 0, 100, true⟩ : MatchRec) ∈
      fuzzyJoin asciiEnv scorerZero [ovrRow] ovrLeft ovrRight ∧
    (∀ m ∈ fuzzyJoin asciiEnv scorerZero [ovrRow] ovrLeft ovrRight,
      m.manual = true → m.score = 100 ∧ (m.left_idx, m.right_idx) ∈
        (applyManualOverrides asciiEnv (ovrLeft.map (canonicalizeRow asciiEnv))
          (ovrRight.map (canonicalizeRow asciiEnv)) [ovrRow]).2) ∧
    ((fuzzyJoin asciiEnv scorerZero [ovrRow] ovrLeft ovrRight).map
      (fun m => m.right_idx)).Nodup ∧
    ((fuzzyJoin asciiEnv scorerZero [ovrRow] ovrLeft ovrRight).map
      (fun m => m.left_idx)).Nodup :=
  c5_manual_overrides asciiEnv scorerZero [ovrRow] ovrLeft ovrRight 0 0
    (by decide)

/-- Claim C5, part refuted: both quotes of `ovrLeft` carry the override's
left triple and the override's right side matches projection 0, so the
pair list targets both quotes, yet only quote 0 is matched; quote 1 gets
no match at all, contradicting the claim's universal. -/
theorem c5_counterexample :
    (1, 0) ∈ (applyManualOverrides asciiEnv
      (ovrLeft.map (canonicalizeRow asciiEnv))
      (ovrRight.map (canonicalizeRow asciiEnv)) [ovrRow]).2 ∧
    fuzzyJoin asciiEnv scorerZero [ovrRow] ovrLeft ovrRight =
      [⟨0, 0, 100, true⟩] ∧
    (∀ m ∈ fuzzyJoin asciiEnv scorerZero [ovrRow] ovrLeft ovrRight,
      m.left_idx ≠ 1) :=
  ⟨by decide, by decide, by decide⟩

/-- `Char` order transported to code points. -/
theorem char_le_toNat {c d : Char} : c ≤ d ↔ c.toNat ≤ d.toNat := by
  rw [Char.le_def, UInt32.le_def, BitVec.le_def]
  exact Iff.rfl

/-- `Char.ofNat` on a valid (basic-plane) code point evaluates to it. -/
theorem char_toNat_ofNat (n : ℕ) (h : n < 55296) : (Char.ofNat n).toNat = n := by
  unfold Char.ofNat
  rw [dif_pos]
  · rfl
  · exact Or.inl h

/-- Code-point ranges of `[a-z0-9]` characters. -/
theorem alnum_spec {c : Char} (h : isLowerAlnumChar c = true) :
    (97 ≤ c.toNat ∧ c.toNat ≤ 122) ∨ (48 ≤ c.toNat ∧ c.toNat ≤ 57) := by
  simp only [isLowerAlnumChar, decide_eq_true_eq] at h
  rcases h with ⟨h1, h2⟩ | ⟨h1, h2⟩
  · exact Or.inl ⟨char_le_toNat.1 h1, char_le_toNat.1 h2⟩
  · exact Or.inr ⟨char_le_toNat.1 h1, char_le_toNat.1 h2⟩

/-- Code-point ranges of the whitespace class. -/
theorem ws_spec {c : Char} (h : pyWsChar c = true) :
    c.toNat = 32 ∨ (9 ≤ c.toNat ∧ c.toNat ≤ 13) ∨
      (28 ≤ c.toNat ∧ c.toNat ≤ 31) := by
  simp only [pyWsChar, decide_eq_true_eq] at h
  rcases h with rfl | rfl | rfl | rfl | rfl | rfl | rfl | rfl | rfl | rfl
  all_goals decide

/-- An alphanumeric character is not whitespace. -/
theorem alnum_not_ws {c : Char} (h : isLowerAlnumChar c = true) :
    pyWsChar c = false := by
  rcases hw : pyWsChar c
  · rfl
  · exfalso
    rcases alnum_spec h with ⟨h1, h2⟩ | ⟨h1, h2⟩ <;>
      rcases ws_spec hw with g | ⟨g1, g2⟩ | ⟨g1, g2⟩ <;> omega

/-- An alphanumeric character is not an upper-case letter. -/
theorem alnum_not_upper {c : Char} (h : isLowerAlnumChar c = true) :
    ¬('A' ≤ c ∧ c ≤ 'Z') := by
  rintro ⟨h1, h2⟩
  have h1' : 65 ≤ c.toNat := char_le_toNat.1 h1
  have h2' : c.toNat ≤ 90 := char_le_toNat.1 h2
  rcases alnum_spec h with ⟨g1, g2⟩ | ⟨g1, g2⟩ <;> omega

/-- Lower-casing fixes alphanumeric and whitespace characters. -/
theorem asciiLowerChar_fix {c : Char}
    (h : isLowerAlnumChar c = true ∨ pyWsChar c = true) :
    asciiLowerChar c = c := by
  unfold asciiLowerChar
  rw [if_neg]
  rcases h with h | h
  · exact alnum_not_upper h
  · rintro ⟨h1, h2⟩
    have h1' : 65 ≤ c.toNat := char_le_toNat.1 h1
    have h2' : c.toNat ≤ 90 := char_le_toNat.1 h2
    rcases ws_spec h with g | ⟨g1, g2⟩ | ⟨g1, g2⟩ <;> omega

/-- Alphanumeric characters are ASCII. -/
theorem alnum_ascii {c : Char} (h : isLowerAlnumChar c = true) :
    c.toNat < 128 := by
  rcases alnum_spec h with ⟨h1, h2⟩ | ⟨h1, h2⟩ <;> omega

/-- Upper-casing an ASCII character gives an ASCII character that is not a
lower-case letter. -/
theorem asciiUpperChar_spec (c : Char) (hc : c.toNat < 128) :
    ¬('a' ≤ asciiUpperChar c ∧ asciiUpperChar c ≤ 'z') ∧
      (asciiUpperChar c).toNat < 128 := by
  unfold asciiUpperChar
  split
  next h =>
    have h1 : 97 ≤ c.toNat := char_le_toNat.1 h.1
    have h2 : c.toNat ≤ 122 := char_le_toNat.1 h.2
    have e : (Char.ofNat (c.toNat - 32)).toNat = c.toNat - 32 :=
      char_toNat_ofNat _ (by omega)
    constructor
    · rintro ⟨g1, g2⟩
      have g1' : 97 ≤ (Char.ofNat (c.toNat - 32)).toNat := char_le_toNat.1 g1
      omega
    · omega
  next h =>
    exact ⟨h, hc⟩

/-- Upper-casing fixes characters that are not lower-case letters. -/
theorem asciiUpperChar_fix {c : Char} (h : ¬('a' ≤ c ∧ c ≤ 'z')) :
    asciiUpperChar c = c := by
  unfold asciiUpperChar
  exact if_neg h

/-- `splitGo` walks past a separator-free prefix, accumulating it. -/
theorem splitGo_append_nonsep (p : Char → Bool) (rest : List Char) :
    ∀ (t acc : List Char), (∀ c ∈ t, p c = false) →
      splitGo p (t ++ rest) acc = splitGo p rest (t.reverse ++ acc) := by
  intro t
  induction t with
  | nil => intro acc ht; simp
  | cons c t' ih =>
    intro acc ht
    have hc : p c = false := ht c (List.mem_cons_self _ _)
    simp only [List.cons_append, splitGo, hc, Bool.false_eq_true, if_false,
      List.append_eq]
    rw [ih (c :: acc) (fun d hd => ht d (List.mem_cons_of_mem _ hd))]
    simp

/-- Splitting a nonempty separator-free list yields that list alone. -/
theorem splitOnP_single (p : Char → Bool) (l : List Char) (hl : l ≠ [])
    (h : ∀ c ∈ l, p c = false) : splitOnP p l = [l] := by
  unfold splitOnP
  have e : l ++ ([] : List Char) = l := by simp
  conv_lhs => rw [← e]
  rw [splitGo_append_nonsep p [] l [] h]
  simp [splitGo, hl]

/-- Every token produced by `splitGo` is nonempty, free of separators, and
made of characters satisfying the ambient alphabet predicate. -/
theorem splitGo_tokens (p q : Char → Bool) :
    ∀ (u acc : List Char),
      (∀ c ∈ u, p c = true ∨ q c = true) →
      (∀ c ∈ acc, q c = true ∧ p c = false) →
      ∀ tk ∈ splitGo p u acc, tk ≠ [] ∧ ∀ c ∈ tk, q c = true ∧ p c = false := by
  intro u
  induction u with
  | nil =>
    intro acc hu hacc tk htk
    simp only [splitGo] at htk
    split at htk
    · cases htk
    · next hne =>
      rcases List.mem_singleton.1 htk with rfl
      refine ⟨by simpa using hne, fun c hc => hacc c (by simpa using hc)⟩
  | cons c u' ih =>
    intro acc hu hacc tk htk
    by_cases hp : p c = true
    · simp only [splitGo, hp, if_true] at htk
      by_cases hacc0 : acc = []
      · rw [if_pos hacc0] at htk
        exact ih [] (fun d hd => hu d (List.mem_cons_of_mem _ hd)) (by simp)
          tk htk
      · rw [if_neg hacc0] at htk
        rcases List.mem_cons.1 htk with rfl | htk2
        · refine ⟨by simpa using hacc0, fun d hd => hacc d (by simpa using hd)⟩
        · exact ih [] (fun d hd => hu d (List.mem_cons_of_mem _ hd)) (by simp)
            tk htk2
    · have hp' : p c = false := by simpa using hp
      simp only [splitGo, hp', Bool.false_eq_true, if_false] at htk
      have hq : q c = true := by
        rcases hu c (List.mem_cons_self _ _) with hx | hx
        · exact absurd hx hp
        · exact hx
      refine ih (c :: acc) (fun d hd => hu d (List.mem_cons_of_mem _ hd))
        (fun d hd => ?_) tk htk
      rcases List.mem_cons.1 hd with rfl | hd2
      · exact ⟨hq, hp'⟩
      · exact hacc d hd2

/-- Splitting a space-join of nonempty separator-free tokens recovers the
tokens. -/
theorem splitOnP_join (p : Char → Bool) (hsp : p ' ' = true) :
    ∀ (toks : List (List Char)),
      (∀ tk ∈ toks, tk ≠ [] ∧ ∀ c ∈ tk, p c = false) →
      splitOnP p (joinSpace toks) = toks := by
  intro toks
  induction toks with
  | nil => intro h; rfl
  | cons t ts ih =>
    intro h
    obtain ⟨htne, htc⟩ := h t (List.mem_cons_self _ _)
    rcases ts with _ | ⟨t2, ts'⟩
    · simp only [joinSpace]
      exact splitOnP_single p t htne htc
    · have ih' := ih (fun tk htk => h tk (List.mem_cons_of_mem _ htk))
      simp only [splitOnP] at ih'
      simp only [joinSpace, splitOnP]
      rw [splitGo_append_nonsep p (' ' :: joinSpace (t2 :: ts')) t [] htc]
      simp [splitGo, hsp, htne, ih']

/-- `collapseGo` copies a nonempty whitespace-free prefix unchanged. -/
theorem collapseGo_append (rest : List Char) :
    ∀ (t : List Char) (b : Bool), t ≠ [] → (∀ c ∈ t, pyWsChar c = false) →
      collapseGo (t ++ rest) b = t ++ collapseGo rest false := by
  intro t
  induction t with
  | nil => intro b h _; cases h rfl
  | cons c t' ih =>
    intro b _ ht
    have hc : pyWsChar c = false := ht c (List.mem_cons_self _ _)
    simp only [List.cons_append, collapseGo, hc, Bool.false_eq_true, if_false,
      List.append_eq]
    rcases t' with _ | ⟨d, t''⟩
    · simp
    · rw [ih false (by simp) (fun e he => ht e (List.mem_cons_of_mem _ he))]

/-- Whitespace collapsing fixes a space-join of nonempty whitespace-free
tokens, whatever the incoming flag. -/
theorem collapse_join :
    ∀ (toks : List (List Char)),
      (∀ tk ∈ toks, tk ≠ [] ∧ ∀ c ∈ tk, pyWsChar c = false) →
      collapseGo (joinSpace toks) true = joinSpace toks ∧
        collapseGo (joinSpace toks) false = joinSpace toks := by
  intro toks
  induction toks with
  | nil => intro _; exact ⟨rfl, rfl⟩
  | cons t ts ih =>
    intro h
    obtain ⟨htne, htc⟩ := h t (List.mem_cons_self _ _)
    have ih' := ih (fun tk htk => h tk (List.mem_cons_of_mem _ htk))
    rcases ts with _ | ⟨t2, ts'⟩
    · simp only [joinSpace]
      constructor <;>
      · conv_lhs => rw [show t = t ++ [] by simp]
        rw [collapseGo_append [] t _ htne htc]
        simp [collapseGo]
    · simp only [joinSpace]
      have hws : pyWsChar ' ' = true := by decide
      constructor <;>
      · rw [collapseGo_append (' ' :: joinSpace (t2 :: ts')) t _ htne htc]
        simp [collapseGo, hws, ih'.1]

/-- Every character of a space-join is a space or a token character. -/
theorem join_chars :
    ∀ (toks : List (List Char)) (c : Char), c ∈ joinSpace toks →
      c = ' ' ∨ ∃ tk ∈ toks, c ∈ tk := by
  intro toks
  induction toks with
  | nil => intro c hc; cases hc
  | cons t ts ih =>
    intro c hc
    rcases ts with _ | ⟨t2, ts'⟩
    · simp only [joinSpace] at hc
      exact Or.inr ⟨t, List.mem_cons_self _ _, hc⟩
    · simp only [joinSpace] at hc
      rcases List.mem_append.1 hc with h1 | h1
      · exact Or.inr ⟨t, List.mem_cons_self _ _, h1⟩
      · rcases List.mem_cons.1 h1 with rfl | h2
        · exact Or.inl rfl
        · rcases ih c h2 with h3 | ⟨tk, htk, hctk⟩
          · exact Or.inl h3
          · exact Or.inr ⟨tk, List.mem_cons_of_mem _ htk, hctk⟩

/-- A space-join headed by a nonempty token starts with one of its
characters. -/
theorem join_head (t : List Char) (ts : List (List Char)) (ht : t ≠ []) :
    ∃ c rest, joinSpace (t :: ts) = c :: rest ∧ c ∈ t := by
  rcases t with _ | ⟨c, t'⟩
  · cases ht rfl
  · rcases ts with _ | ⟨t2, ts'⟩
    · exact ⟨c, t', by simp [joinSpace], List.mem_cons_self _ _⟩
    · exact ⟨c, t' ++ ' ' :: joinSpace (t2 :: ts'), by simp [joinSpace],
        List.mem_cons_self _ _⟩

/-- A space-join of nonempty tokens ends with a token character. -/
theorem join_last :
    ∀ (toks : List (List Char)), (∀ tk ∈ toks, tk ≠ []) → toks ≠ [] →
      ∃ c pre, joinSpace toks = pre ++ [c] ∧ ∃ tk ∈ toks, c ∈ tk := by
  intro toks
  induction toks with
  | nil => intro _ hne; cases hne rfl
  | cons t ts ih =>
    intro h _
    rcases ts with _ | ⟨t2, ts'⟩
    · have ht := h t (List.mem_cons_self _ _)
      rcases List.eq_nil_or_concat t with rfl | ⟨pre, c, hpre⟩
      · cases ht rfl
      · refine ⟨c, pre, ?_, ⟨t, List.mem_cons_self _ _, ?_⟩⟩
        · simp only [joinSpace]
          rw [hpre]
          simp
        · rw [hpre]
          simp
    · obtain ⟨c, pre, hj, tk, htk, hctk⟩ :=
        ih (fun tk htk2 => h tk (List.mem_cons_of_mem _ htk2)) (by simp)
      refine ⟨c, t ++ ' ' :: pre, ?_, ⟨tk, List.mem_cons_of_mem _ htk, hctk⟩⟩
      simp only [joinSpace]
      rw [hj]
      simp

/-- Stripping fixes a space-join of nonempty whitespace-free tokens. -/
theorem strip_join (toks : List (List Char))
    (h : ∀ tk ∈ toks, tk ≠ [] ∧ ∀ c ∈ tk, pyWsChar c = false) :
    stripWsL (joinSpace toks) = joinSpace toks := by
  rcases toks with _ | ⟨t, ts⟩
  · rfl
  · obtain ⟨c, rest, hj, hct⟩ := join_head t ts (h t (List.mem_cons_self _ _)).1
    obtain ⟨c2, pre, hj2, tk2, htk2, hc2⟩ :=
      join_last (t :: ts) (fun tk htk => (h tk htk).1) (by simp)
    have hcws : pyWsChar c = false := (h t (List.mem_cons_self _ _)).2 c hct
    have hc2ws : pyWsChar c2 = false := (h tk2 htk2).2 c2 hc2
    unfold stripWsL
    rw [hj, List.dropWhile_cons, if_neg (by simp [hcws]), ← hj, hj2]
    simp [List.dropWhile_cons, hc2ws]

/-- `dropWhile` is idempotent. -/
theorem dropWhile_twice {α : Type} (p : α → Bool) (l : List α) :
    (l.dropWhile p).dropWhile p = l.dropWhile p := by
  induction l with
  | nil => rfl
  | cons a l ih =>
    rcases h : p a
    · simp [List.dropWhile_cons, h]
    · simp [List.dropWhile_cons, h, ih]

/-- Mapping a function that fixes every member fixes the list. -/
theorem map_fix {α : Type} (f : α → α) :
    ∀ (l : List α), (∀ a ∈ l, f a = a) → l.map f = l := by
  intro l
  induction l with
  | nil => intro _; rfl
  | cons a l ih =>
    intro h
    rw [List.map_cons, h a (List.mem_cons_self _ _),
      ih (fun b hb => h b (List.mem_cons_of_mem _ hb))]

/-- A successful association-list lookup exhibits its key-value pair. -/
theorem lookup_pair_mem {l : List (String × String)} {a b : String}
    (h : l.lookup a = some b) : (a, b) ∈ l := by
  induction l with
  | nil => cases h
  | cons pr t ih =>
    obtain ⟨k, v⟩ := pr
    rw [List.lookup_cons] at h
    split at h
    · next heq =>
      simp only [Option.some.injEq] at h
      subst h
      have hk : a = k := by simpa using heq
      subst hk
      exact List.mem_cons_self _ _
    · exact List.mem_cons_of_mem _ (ih h)

/-- The position-alias map preserves nonemptiness, ASCII-ness, absence of
lower-case letters, and absence of separators. -/
theorem aliasMap_props (s : String) (h1 : s.data ≠ [])
    (h2 : ∀ c ∈ s.data, (c.toNat < 128 ∧ ¬('a' ≤ c ∧ c ≤ 'z')) ∧
      posSepChar c = false) :
    (aliasMap s).data ≠ [] ∧ ∀ c ∈ (aliasMap s).data,
      (c.toNat < 128 ∧ ¬('a' ≤ c ∧ c ≤ 'z')) ∧ posSepChar c = false := by
  unfold aliasMap
  rcases hl : posAliases.lookup s with _ | v
  · simp only [Option.getD_none]
    exact ⟨h1, h2⟩
  · simp only [Option.getD_some]
    have hall : ∀ pr ∈ posAliases, pr.2.data ≠ [] ∧ ∀ c ∈ pr.2.data,
        ((c.toNat < 128 ∧ ¬('a' ≤ c ∧ c ≤ 'z')) ∧ posSepChar c = false) := by
      decide
    exact hall (s, v) (lookup_pair_mem hl)

/-- The position-alias map is idempotent: its values are fixed points. -/
theorem aliasMap_idem (s : String) : aliasMap (aliasMap s) = aliasMap s := by
  unfold aliasMap
  rcases hl : posAliases.lookup s with _ | v
  · simp [hl]
  · simp only [hl, Option.getD_some]
    have hall : ∀ pr ∈ posAliases,
        (posAliases.lookup pr.2).getD pr.2 = pr.2 := by decide
    exact hall (s, v) (lookup_pair_mem hl)

/-- A space-join of alphanumeric tokens is all-ASCII. -/
theorem join_good_ascii (toks : List (List Char))
    (hgood : ∀ tk ∈ toks, tk ≠ [] ∧ ∀ c ∈ tk,
      isLowerAlnumChar c = true ∧ pyWsChar c = false) :
    allAscii ⟨joinSpace toks⟩ = true := by
  simp only [allAscii, List.all_eq_true]
  intro c hc
  rcases join_chars toks c hc with rfl | ⟨tk, htk, hctk⟩
  · decide
  · exact decide_eq_true (alnum_ascii ((hgood tk htk).2 c hctk).1)

/-- Lower-casing fixes a space-join of alphanumeric tokens. -/
theorem join_good_lower (toks : List (List Char))
    (hgood : ∀ tk ∈ toks, tk ≠ [] ∧ ∀ c ∈ tk,
      isLowerAlnumChar c = true ∧ pyWsChar c = false) :
    asciiLower ⟨joinSpace toks⟩ = ⟨joinSpace toks⟩ := by
  simp only [asciiLower]
  congr 1
  refine map_fix _ _ (fun c hc => ?_)
  rcases join_chars toks c hc with rfl | ⟨tk, htk, hctk⟩
  · decide
  · exact asciiLowerChar_fix (Or.inl ((hgood tk htk).2 c hctk).1)

/-- The output of `normalize_name`'s core is a space-join of nonempty
alphanumeric tokens with no trailing generational suffix. -/
theorem nameCore_output (env : TextEnv) (s : String) :
    ∃ toks : List (List Char),
      (∀ tk ∈ toks, tk ≠ [] ∧ ∀ c ∈ tk,
        isLowerAlnumChar c = true ∧ pyWsChar c = false) ∧
      toks.reverse.dropWhile (fun tk => decide (tk ∈ suffixTokens)) =
        toks.reverse ∧
      nameCore env s = ⟨joinSpace toks⟩ := by
  have hu : ∀ c ∈ (asciiLower (env.fold s)).data.map
      (fun c => if isLowerAlnumChar c || pyWsChar c then c else ' '),
      pyWsChar c = true ∨ isLowerAlnumChar c = true := by
    intro c hc
    rcases List.mem_map.1 hc with ⟨d, hd, rfl⟩
    by_cases hcond : (isLowerAlnumChar d || pyWsChar d) = true
    · rw [if_pos hcond]
      rcases (by simpa using hcond :
        isLowerAlnumChar d = true ∨ pyWsChar d = true) with h | h
      · exact Or.inr h
      · exact Or.inl h
    · rw [if_neg hcond]
      exact Or.inl (by decide)
  have htoks := splitGo_tokens pyWsChar isLowerAlnumChar
    ((asciiLower (env.fold s)).data.map
      (fun c => if isLowerAlnumChar c || pyWsChar c then c else ' '))
    [] hu (by simp)
  set T := ((splitOnP pyWsChar ((asciiLower (env.fold s)).data.map
      (fun c => if isLowerAlnumChar c || pyWsChar c then c else ' '))).reverse.dropWhile
        (fun tk => decide (tk ∈ suffixTokens))).reverse with hT
  have hgood : ∀ tk ∈ T, tk ≠ [] ∧ ∀ c ∈ tk,
      isLowerAlnumChar c = true ∧ pyWsChar c = false := by
    intro tk htk
    rw [hT] at htk
    have h1 := List.mem_reverse.1 htk
    have h2 := (List.dropWhile_sublist _).subset h1
    have h3 := List.mem_reverse.1 h2
    exact htoks tk h3
  refine ⟨T, hgood, ?_, ?_⟩
  · rw [hT, List.reverse_reverse]
    exact dropWhile_twice _ _
  · have hgoodWs : ∀ tk ∈ T, tk ≠ [] ∧ ∀ c ∈ tk, pyWsChar c = false :=
      fun tk htk => ⟨(hgood tk htk).1, fun c hc => ((hgood tk htk).2 c hc).2⟩
    simp only [nameCore, collapseWsL]
    rw [← hT, (collapse_join T hgoodWs).2, strip_join T hgoodWs]

/-- The name-normalization core fixes a space-join of nonempty
alphanumeric tokens without trailing suffix tokens. -/
theorem nameCore_fix (env : TextEnv) (henv : EnvOK env)
    (toks : List (List Char))
    (hgood : ∀ tk ∈ toks, tk ≠ [] ∧ ∀ c ∈ tk,
      isLowerAlnumChar c = true ∧ pyWsChar c = false)
    (hsuf : toks.reverse.dropWhile (fun tk => decide (tk ∈ suffixTokens)) =
      toks.reverse) :
    nameCore env ⟨joinSpace toks⟩ = ⟨joinSpace toks⟩ := by
  obtain ⟨hlow, hfold, hascii⟩ := henv
  have hgoodWs : ∀ tk ∈ toks, tk ≠ [] ∧ ∀ c ∈ tk, pyWsChar c = false :=
    fun tk htk => ⟨(hgood tk htk).1, fun c hc => ((hgood tk htk).2 c hc).2⟩
  have hfold2 : env.fold ⟨joinSpace toks⟩ = ⟨joinSpace toks⟩ :=
    hfold _ (join_good_ascii toks hgood)
  have hlfix : asciiLower ⟨joinSpace toks⟩ = ⟨joinSpace toks⟩ :=
    join_good_lower toks hgood
  have hdata : (String.mk (joinSpace toks)).data = joinSpace toks := rfl
  have humap : (joinSpace toks).map
      (fun c => if isLowerAlnumChar c || pyWsChar c then c else ' ') =
      joinSpace toks := by
    refine map_fix _ _ (fun c hc => ?_)
    rcases join_chars toks c hc with rfl | ⟨tk, htk, hctk⟩
    · decide
    · rw [if_pos]
      simp [((hgood tk htk).2 c hctk).1]
  simp only [nameCore, hfold2, hlfix, hdata, humap, collapseWsL]
  rw [splitOnP_join pyWsChar (by decide) toks hgoodWs, hsuf,
    List.reverse_reverse, (collapse_join toks hgoodWs).2,
    strip_join toks hgoodWs]

/-- `normalize_name` is idempotent on every input whose first-pass output
is not the literal string "nan". -/
theorem normalize_name_idem (env : TextEnv) (henv : EnvOK env) (v : PyVal)
    (h : normalize_name env v ≠ "nan") :
    normalize_name env (.vstr (normalize_name env v)) =
      normalize_name env v := by
  have hlnan : env.lower "nan" = "nan" := by
    rw [henv.1 "nan" (by decide)]
    decide
  rcases v with _ | _ | t
  · simp [normalize_name, pyValStr]
  · simp [normalize_name, pyValStr, hlnan]
  · by_cases hg : t = "" ∨ env.lower t = "nan"
    · simp only [normalize_name, pyValStr]
      rw [if_pos hg]
      simp [normalize_name, pyValStr]
    · have hval : normalize_name env (.vstr t) = nameCore env t := by
        simp only [normalize_name, pyValStr]
        rw [if_neg hg]
      obtain ⟨toks, hgood, hsuf, hcore⟩ := nameCore_output env t
      rw [hval, hcore] at h ⊢
      by_cases h0 : (⟨joinSpace toks⟩ : String) = ""
      · rw [h0]
        simp [normalize_name, pyValStr]
      · have hlow2 : env.lower ⟨joinSpace toks⟩ = ⟨joinSpace toks⟩ := by
          rw [henv.1 _ (join_good_ascii toks hgood), join_good_lower toks hgood]
        have hguard : ¬((⟨joinSpace toks⟩ : String) = "" ∨
            env.lower ⟨joinSpace toks⟩ = "nan") := by
          rintro (hc | hc)
          · exact h0 hc
          · rw [hlow2] at hc
            exact h hc
        simp only [normalize_name, pyValStr]
        rw [if_neg hguard]
        exact nameCore_fix env henv toks hgood hsuf

/-- `_normalize_team` is idempotent on every input whose first-pass output
is not the literal string "nan". -/
theorem normalize_team_idem (env : TextEnv) (henv : EnvOK env) (v : PyVal)
    (h : normalize_team env v ≠ "nan") :
    normalize_team env (.vstr (normalize_team env v)) =
      normalize_team env v := by
  have hlnan : env.lower "nan" = "nan" := by
    rw [henv.1 "nan" (by decide)]
    decide
  rcases v with _ | _ | t
  · simp [normalize_team, pyValStr]
  · simp [normalize_team, pyValStr, hlnan]
  · by_cases hg : t = "" ∨ env.lower t = "nan"
    · simp only [normalize_team, pyValStr]
      rw [if_pos hg]
      simp [normalize_team, pyValStr]
    · have hval : normalize_team env (.vstr t) =
          ⟨(asciiLower (env.fold t)).data.filter isLowerAlnumChar⟩ := by
        simp only [normalize_team, pyValStr]
        rw [if_neg hg]
      rw [hval] at h ⊢
      have hoalnum : ∀ c ∈ (asciiLower (env.fold t)).data.filter
          isLowerAlnumChar, isLowerAlnumChar c = true :=
        fun c hc => (List.mem_filter.1 hc).2
      by_cases h0 : (⟨(asciiLower (env.fold t)).data.filter
          isLowerAlnumChar⟩ : String) = ""
      · rw [h0]
        simp [normalize_team, pyValStr]
      · have hdata : (String.mk ((asciiLower (env.fold t)).data.filter
            isLowerAlnumChar)).data =
            (asciiLower (env.fold t)).data.filter isLowerAlnumChar := rfl
        have hA : allAscii ⟨(asciiLower (env.fold t)).data.filter
            isLowerAlnumChar⟩ = true := by
          simp only [allAscii, List.all_eq_true, hdata]
          intro c hc
          exact decide_eq_true (alnum_ascii (hoalnum c hc))
        have hlfix : asciiLower ⟨(asciiLower (env.fold t)).data.filter
            isLowerAlnumChar⟩ =
            ⟨(asciiLower (env.fold t)).data.filter isLowerAlnumChar⟩ := by
          simp only [asciiLower, hdata]
          congr 1
          exact map_fix _ _ (fun c hc => asciiLowerChar_fix
            (Or.inl (hoalnum c hc)))
        have hlow2 : env.lower ⟨(asciiLower (env.fold t)).data.filter
            isLowerAlnumChar⟩ =
            ⟨(asciiLower (env.fold t)).data.filter isLowerAlnumChar⟩ := by
          rw [henv.1 _ hA, hlfix]
        have hguard : ¬((⟨(asciiLower (env.fold t)).data.filter
            isLowerAlnumChar⟩ : String) = "" ∨
            env.lower ⟨(asciiLower (env.fold t)).data.filter
              isLowerAlnumChar⟩ = "nan") := by
          rintro (hc | hc)
          · exact h0 hc
          · rw [hlow2] at hc
            exact h hc
        simp only [normalize_team, pyValStr]
        rw [if_neg hguard, henv.2.1 _ hA, hlfix]
        congr 1
        rw [hdata]
        exact List.filter_eq_self.2 (fun a ha => hoalnum a ha)

/-- `_normalize_pos` is idempotent on every input whose first-pass output
does not lower-case to the literal string "nan". -/
theorem normalize_pos_idem (env : TextEnv) (henv : EnvOK env) (v : PyVal)
    (h : asciiLower (normalize_pos env v) ≠ "nan") :
    normalize_pos env (.vstr (normalize_pos env v)) = normalize_pos env v := by
  have hlnan : env.lower "nan" = "nan" := by
    rw [henv.1 "nan" (by decide)]
    decide
  rcases v with _ | _ | t
  · simp [normalize_pos, pyValStr]
  · simp [normalize_pos, pyValStr, hlnan]
  · by_cases hg : t = "" ∨ env.lower t = "nan"
    · simp only [normalize_pos, pyValStr]
      rw [if_pos hg]
      simp [normalize_pos, pyValStr]
    · have hu : ∀ c ∈ (asciiUpper (env.fold t)).data, posSepChar c = true ∨
          (decide (c.toNat < 128) &&
            !(decide ('a' ≤ c) && decide (c ≤ 'z'))) = true := by
        intro c hc
        have hc2 : c ∈ (env.fold t).data.map asciiUpperChar := hc
        rcases List.mem_map.1 hc2 with ⟨d, hd, rfl⟩
        have hda : d.toNat < 128 := by
          have := henv.2.2 t
          simp only [allAscii, List.all_eq_true] at this
          exact of_decide_eq_true (this d hd)
        obtain ⟨hnl, hascii⟩ := asciiUpperChar_spec d hda
        refine Or.inr ?_
        rw [Bool.and_eq_true]
        refine ⟨decide_eq_true hascii, ?_⟩
        rw [Bool.not_eq_true']
        rcases hd1 : decide ('a' ≤ asciiUpperChar d)
        · rfl
        · rcases hd2 : decide (asciiUpperChar d ≤ 'z')
          · rfl
          · exact absurd ⟨of_decide_eq_true hd1, of_decide_eq_true hd2⟩ hnl
      have hsplit := splitGo_tokens posSepChar
        (fun c => decide (c.toNat < 128) &&
          !(decide ('a' ≤ c) && decide (c ≤ 'z')))
        (asciiUpper (env.fold t)).data [] hu (by simp)
      rcases hsp : splitOnP posSepChar (asciiUpper (env.fold t)).data with
        _ | ⟨p0, rest⟩
      · have hval : normalize_pos env (.vstr t) = "" := by
          simp [normalize_pos, pyValStr, hg, hsp]
        rw [hval]
        simp [normalize_pos, pyValStr]
      · have hval : normalize_pos env (.vstr t) = aliasMap ⟨p0⟩ := by
          simp [normalize_pos, pyValStr, hg, hsp]
        have hmem : p0 ∈ splitOnP posSepChar (asciiUpper (env.fold t)).data := by
          rw [hsp]
          exact List.mem_cons_self _ _
        have hp0 := hsplit p0 hmem
        have hprops : (⟨p0⟩ : String).data ≠ [] ∧
            ∀ c ∈ (⟨p0⟩ : String).data,
              (c.toNat < 128 ∧ ¬('a' ≤ c ∧ c ≤ 'z')) ∧
                posSepChar c = false := by
          refine ⟨hp0.1, fun c hc => ?_⟩
          obtain ⟨hq, hsep⟩ := hp0.2 c hc
          rw [Bool.and_eq_true] at hq
          obtain ⟨hq1, hq2⟩ := hq
          refine ⟨⟨of_decide_eq_true hq1, ?_⟩, hsep⟩
          rintro ⟨g1, g2⟩
          rw [decide_eq_true g1, decide_eq_true g2] at hq2
          exact absurd hq2 (by decide)
        have halias := aliasMap_props ⟨p0⟩ hprops.1 hprops.2
        rw [hval] at h ⊢
        set o := aliasMap ⟨p0⟩ with ho
        have hone : o ≠ "" := by
          intro hc
          refine halias.1 ?_
          rw [hc]
        have hA : allAscii o = true := by
          simp only [allAscii, List.all_eq_true]
          intro c hc
          exact decide_eq_true (halias.2 c hc).1.1
        have hufix : asciiUpper o = o := by
          have hm : o.data.map asciiUpperChar = o.data :=
            map_fix _ _ (fun c hc => asciiUpperChar_fix (halias.2 c hc).1.2)
          calc asciiUpper o = ⟨o.data.map asciiUpperChar⟩ := rfl
          _ = ⟨o.data⟩ := by rw [hm]
          _ = o := rfl
        have hlow2 : env.lower o = asciiLower o := henv.1 _ hA
        have hguard : ¬(o = "" ∨ env.lower o = "nan") := by
          rintro (hc | hc)
          · exact hone hc
          · rw [hlow2] at hc
            exact h hc
        simp only [normalize_pos, pyValStr]
        rw [if_neg hguard, henv.2.1 _ hA, hufix,
          splitOnP_single posSepChar o.data halias.1
            (fun c hc => (halias.2 c hc).2)]
        show aliasMap o = o
        rw [ho]
        exact aliasMap_idem ⟨p0⟩

/-- The concrete ASCII text environment satisfies the documented
behaviour of the abstract primitives. -/
theorem envOK_ascii : EnvOK asciiEnv := by
  refine ⟨fun s hs => rfl, fun s hs => ?_, fun s => ?_⟩
  · show (⟨s.data.filter (fun c => decide (c.toNat < 128))⟩ : String) = s
    have : s.data.filter (fun c => decide (c.toNat < 128)) = s.data := by
      refine List.filter_eq_self.2 (fun a ha => ?_)
      simp only [allAscii, List.all_eq_true] at hs
      exact hs a ha
    rw [this]
  · show allAscii ⟨s.data.filter (fun c => decide (c.toNat < 128))⟩ = true
    simp only [allAscii, List.all_eq_true]
    intro c hc
    exact (List.mem_filter.1 hc).2

/-- Claim C3 (amended): over any text environment satisfying the
documented ASCII behaviour of `str.lower` and NFKD/ASCII-folding, the
three normalizers are deterministic (they are functions) and idempotent
on every input whose first-pass output does not read "nan"
case-insensitively; an output reading "nan" trips the NaN sentinel guard
on the second pass and collapses to "". -/
theorem c3_normalization_idempotent (env : TextEnv) (henv : EnvOK env)
    (v : PyVal) :
    (normalize_name env v ≠ "nan" →
      normalize_name env (.vstr (normalize_name env v)) =
        normalize_name env v) ∧
    (normalize_team env v ≠ "nan" →
      normalize_team env (.vstr (normalize_team env v)) =
        normalize_team env v) ∧
    (asciiLower (normalize_pos env v) ≠ "nan" →
      normalize_pos env (.vstr (normalize_pos env v)) =
        normalize_pos env v) :=
  ⟨normalize_name_idem env henv v, normalize_team_idem env henv v,
    normalize_pos_idem env henv v⟩

/-- Witness for C3 on concrete inputs exercising punctuation, suffix
dropping, team punctuation removal and position aliasing. -/
theorem c3_normalization_idempotent_witness :
    (normalize_name asciiEnv
      (.vstr (normalize_name asciiEnv (.vstr "A.J. Brown Jr."))) =
      normalize_name asciiEnv (.vstr "A.J. Brown Jr.")) ∧
    (normalize_team asciiEnv
      (.vstr (normalize_team asciiEnv (.vstr "GB Packers"))) =
      normalize_team asciiEnv (.vstr "GB Packers")) ∧
    (normalize_pos asciiEnv
      (.vstr (normalize_pos asciiEnv (.vstr "hb/wr"))) =
      normalize_pos asciiEnv (.vstr "hb/wr")) :=
  ⟨(c3_normalization_idempotent asciiEnv envOK_ascii
      (.vstr "A.J. Brown Jr.")).1 (by decide),
    (c3_normalization_idempotent asciiEnv envOK_ascii
      (.vstr "GB Packers")).2.1 (by decide),
    (c3_normalization_idempotent asciiEnv envOK_ascii
      (.vstr "hb/wr")).2.2 (by decide)⟩

/-- Claim C3 refuted as stated: inputs whose normalized form reads "nan"
break idempotence — the second pass hits the NaN sentinel guard and
returns "", so normalizing an already-normalized value changes it. -/
theorem c3_counterexample :
    EnvOK asciiEnv ∧
    (normalize_name asciiEnv (.vstr "nan.") = "nan" ∧
    normalize_name asciiEnv
      (.vstr (normalize_name asciiEnv (.vstr "nan."))) = "" ∧
    normalize_team asciiEnv (.vstr "nan-") = "nan" ∧
    normalize_team asciiEnv
      (.vstr (normalize_team asciiEnv (.vstr "nan-"))) = "" ∧
    normalize_pos asciiEnv (.vstr "nan/qb") = "NAN" ∧
    normalize_pos asciiEnv
      (.vstr (normalize_pos asciiEnv (.vstr "nan/qb"))) = "" ∧
    ("nan" : String) ≠ "" ∧ ("NAN" : String) ≠ "") :=
  ⟨envOK_ascii, by decide⟩

end PropModel
